import Mathlib

/-!
# The associative set of `src/mem/cache/tags/cacheset.hh`

A shallow embedding of `CacheSet<Blktype>` and the properties of its
operations.

Conventions of the embedding.

* `assoc` is a natural number; every other C++ `int` (loop counters, way
  indices, queue counts, direction bits) is an `Int`, and `/` on `int` is
  `Int.tdiv` (truncation), with division by zero a fault.  An `int` has 32
  bits.  In the tree update (`setTREELoop`), whose `li *= 2` can leave that
  range, an overflow is a fault; the other operations are stated on
  mathematical integers.
* A pointer is `Option Nat`, `none` being `NULL`.  Blocks are compared by
  address only (`BlkPtr`); list nodes live in a `Heap`.
* An operation returns a `Res`: `ok` with its result, `fault` for what is
  undefined behaviour or an abort in C++ (a failed `assert`, a `NULL`
  dereference, an index outside an array, a division by zero, a signed
  overflow), `timeout` when the recursion bound given to a loop ran out
  before the loop ended.
-/

namespace CacheSetModel

/-- Outcome of running a piece of the C++ code. -/
inductive Res (α : Type) where
  | ok (a : α)
  | fault
  | timeout
  deriving DecidableEq, Repr

/-- Address of a cache block (`Blktype *`, never `NULL` inside `blks`). -/
abbrev BlkPtr := Nat

/-- Modelled from the spec: the block type of `mem/cache/blk.hh`, of which the
set reads exactly three attributes: the tag, the validity flag (`isValid()`)
and the security-domain flag (`isSecure()`). -/
structure CacheBlk where
  tag : Nat
  valid : Bool
  secure : Bool
  deriving DecidableEq, Repr

/-- A list node of the 2Q queues (`struct node`). -/
structure node where
  val : Int
  next : Option Nat
  deriving DecidableEq, Repr

/-- A 2Q queue (`struct queue`). -/
structure queue where
  num : Int
  front : Option Nat
  rear : Option Nat
  deriving DecidableEq, Repr

/-- The data members of `CacheSet`. -/
structure CacheSet where
  assoc : Nat
  blks : List BlkPtr
  MRU : List Int
  MRU_count : Int
  A1 : queue
  Am : queue
  A1thres : Int
  deriving DecidableEq, Repr

/-! ## Associative lookup -/

/-- The condition of the `if` in `findBlk`. -/
def blkMatches (mem : BlkPtr → CacheBlk) (tag : Nat) (is_secure : Bool) (b : BlkPtr) : Bool :=
  (mem b).tag == tag && (mem b).valid && ((mem b).secure == is_secure)

/-- The loop `for (int i = 0; i < assoc; ++i)` of `findBlk`, by recursion on
the number `assoc - i` of iterations left.  The result is the returned pointer
and the final `way_id`. -/
def findBlkLoop (mem : BlkPtr → CacheBlk) (assoc : Nat) (blks : List BlkPtr)
    (tag : Nat) (is_secure : Bool) : Nat → Nat → Res (Option BlkPtr × Int)
  | 0, _ => Res.ok (none, (assoc : Int))
  | n + 1, i =>
    match blks[i]? with
    | none => Res.fault
    | some b =>
      if blkMatches mem tag is_secure b then Res.ok (some b, (i : Int))
      else findBlkLoop mem assoc blks tag is_secure n (i + 1)

/-- Method `CacheSet::findBlk(tag, is_secure, way_id)`: a `const` method, so the set
itself is not part of the result. -/
def findBlk (mem : BlkPtr → CacheBlk) (s : CacheSet) (tag : Nat) (is_secure : Bool) :
    Res (Option BlkPtr × Int) :=
  findBlkLoop mem s.assoc s.blks tag is_secure s.assoc 0

/-! ## Strict LRU reordering -/

/-- The `do ... while (next != blk)` loop of `moveToHead`.  The first argument
bounds the recursion; `assert(i < assoc)` is checked in every iteration. -/
def moveToHeadLoop (assoc : Nat) (blk : BlkPtr) :
    Nat → List BlkPtr → Nat → BlkPtr → Res (List BlkPtr)
  | 0, _, _, _ => Res.timeout
  | fuel + 1, blks, i, next =>
    if i < assoc then
      match blks[i]? with
      | none => Res.fault
      | some tmp =>
        if tmp ≠ blk then moveToHeadLoop assoc blk fuel (blks.set i next) (i + 1) tmp
        else Res.ok (blks.set i next)
    else Res.fault

/-- Method `CacheSet::moveToHead(blk)`. -/
def moveToHead (s : CacheSet) (blk : BlkPtr) : Res CacheSet :=
  match s.blks[0]? with
  | none => Res.fault
  | some b0 =>
    if b0 = blk then Res.ok s
    else
      match moveToHeadLoop s.assoc blk (s.assoc + 1) s.blks 0 blk with
      | Res.ok blks => Res.ok { s with blks := blks }
      | Res.fault => Res.fault
      | Res.timeout => Res.timeout

/-! ## Locating the way of a block -/

/-- The scan `int i = assoc - 1; for (; i >= 0; --i) if (blks[i] == blk) break;`
that opens every policy operation, by recursion on `i + 1`.  The result is the
final `i`: the highest index holding `blk`, or `-1`. -/
def findWay (blks : List BlkPtr) (blk : BlkPtr) : Nat → Res Int
  | 0 => Res.ok (-1)
  | n + 1 =>
    match blks[n]? with
    | none => Res.fault
    | some b => if b = blk then Res.ok (n : Int) else findWay blks blk n

/-! ## The node store of the 2Q queues -/

/-- The `node` objects allocated so far: `cell a` is the object at address `a`,
and `brk` is the address the next `new node` returns.  Nodes are never freed. -/
structure Heap where
  cell : Nat → node
  brk : Nat

/-- The store before any `new node`. -/
def Heap.empty : Heap := ⟨fun _ => ⟨0, none⟩, 0⟩

/-- Reads `p->val`. -/
def Heap.val (h : Heap) (p : Nat) : Int := (h.cell p).val

/-- Reads `p->next`. -/
def Heap.next (h : Heap) (p : Nat) : Option Nat := (h.cell p).next

/-- The assignment `p->next = q`. -/
def Heap.setNext (h : Heap) (p : Nat) (q : Option Nat) : Heap :=
  { h with cell := Function.update h.cell p { h.cell p with next := q } }

/-- The assignment `p->val = v`. -/
def Heap.setVal (h : Heap) (p : Nat) (v : Int) : Heap :=
  { h with cell := Function.update h.cell p { h.cell p with val := v } }

/-- Expression `new node`: a fresh object with the default members `val = 0`, `next = NULL`. -/
def Heap.alloc (h : Heap) : Nat × Heap :=
  (h.brk, { cell := Function.update h.cell h.brk ⟨0, none⟩, brk := h.brk + 1 })

/-! ## Two-queue policy -/

/-- The `while (tmp->next && tmp->next != Am.rear)` loop of `hit2q` (the scan
of `Am`).  Arguments: recursion bound, store, `Am`, `tmp`. -/
def hit2qAmLoop (i : Int) : Nat → Heap → queue → Nat → Res (Heap × queue)
  | 0, _, _, _ => Res.timeout
  | fuel + 1, h, Am, tmp =>
    match h.next tmp with
    | none => Res.ok (h, Am)
    | some n =>
      if some n = Am.rear then Res.ok (h, Am)
      else if h.val n = i then
        match Am.rear with
        | none => Res.fault
        | some r =>
          -- Am.rear->next = tmp->next;
          let h1 := h.setNext r (h.next tmp)
          -- Am.rear = tmp->next;
          let Am1 : queue := { Am with rear := h1.next tmp }
          -- if (!Am.front) Am.front = tmp->next;
          let Am2 : queue := if Am1.front = none then { Am1 with front := h1.next tmp } else Am1
          -- tmp->next = tmp->next->next;
          match h1.next tmp with
          | none => Res.fault
          | some n1 => Res.ok (h1.setNext tmp (h1.next n1), Am2)
      else hit2qAmLoop i fuel h Am n

/-- The `Am` part of `hit2q` (`node *tmp = Am.front; if (Am.front) ...`). -/
def hit2qAm (i : Int) (fuel : Nat) (h : Heap) (Am : queue) : Res (Heap × queue) :=
  match Am.front with
  | none => Res.ok (h, Am)
  | some tmp =>
    if h.val tmp = i then
      -- Am.front = tmp->next;
      let Am1 : queue := { Am with front := h.next tmp }
      -- Am.rear->next = tmp;
      match Am1.rear with
      | none => Res.fault
      | some r =>
        let h1 := h.setNext r (some tmp)
        -- Am.rear = tmp;
        let Am2 : queue := { Am1 with rear := some tmp }
        -- if (!Am.front) Am.front = tmp;
        let Am3 : queue := if Am2.front = none then { Am2 with front := some tmp } else Am2
        Res.ok (h1, Am3)
    else hit2qAmLoop i fuel h Am tmp

/-- The `while (tmp->next && tmp->next != A1.rear)` loop of `hit2q` (the scan
of `A1`).  Arguments: recursion bound, store, `A1`, `Am`, `tmp`; the final
`tmp` is part of the result, as the code after the loop uses it. -/
def hit2qA1Loop (i : Int) : Nat → Heap → queue → queue → Nat → Res (Heap × queue × queue × Nat)
  | 0, _, _, _, _ => Res.timeout
  | fuel + 1, h, A1, Am, tmp =>
    match h.next tmp with
    | none => Res.ok (h, A1, Am, tmp)
    | some n =>
      if some n = A1.rear then Res.ok (h, A1, Am, tmp)
      else if h.val n = i then
        -- if (Am.rear) Am.rear->next = tmp->next;
        let h1 := match Am.rear with
          | some r => h.setNext r (h.next tmp)
          | none => h
        -- Am.rear = tmp->next;
        let Am1 : queue := { Am with rear := h1.next tmp }
        -- if (!Am.front) Am.front = tmp->next;
        let Am2 : queue := if Am1.front = none then { Am1 with front := h1.next tmp } else Am1
        -- tmp->next = tmp->next->next;
        match h1.next tmp with
        | none => Res.fault
        | some n1 =>
          -- A1.num--; Am.num++; break;
          Res.ok (h1.setNext tmp (h1.next n1), { A1 with num := A1.num - 1 },
            { Am2 with num := Am2.num + 1 }, tmp)
      else hit2qA1Loop i fuel h A1 Am n

/-- The `A1` part of `hit2q` (`if (A1.front) ...`). -/
def hit2qA1 (i : Int) (fuel : Nat) (h : Heap) (A1 Am : queue) : Res (Heap × queue × queue) :=
  match A1.front with
  | none => Res.ok (h, A1, Am)
  | some tmp =>
    if h.val tmp = i then
      -- A1.front = tmp->next; if (A1.front == NULL) A1.rear = NULL;
      let A1a : queue := { A1 with front := h.next tmp }
      let A1b : queue := if A1a.front = none then { A1a with rear := none } else A1a
      -- if (Am.rear) Am.rear->next = tmp;
      let h1 := match Am.rear with
        | some r => h.setNext r (some tmp)
        | none => h
      -- Am.rear = tmp; if (!Am.front) Am.front = tmp;
      let Am1 : queue := { Am with rear := some tmp }
      let Am2 : queue := if Am1.front = none then { Am1 with front := some tmp } else Am1
      -- A1.num--; Am.num++;
      Res.ok (h1, { A1b with num := A1b.num - 1 }, { Am2 with num := Am2.num + 1 })
    else
      match hit2qA1Loop i fuel h A1 Am tmp with
      | Res.fault => Res.fault
      | Res.timeout => Res.timeout
      | Res.ok (h', A1', Am', tmp') =>
        -- if (A1.rear->val == i)
        match A1'.rear with
        | none => Res.fault
        | some r =>
          if h'.val r = i then
            -- if (Am.rear) Am.rear->next = A1.rear;
            let h1 := match Am'.rear with
              | some ar => h'.setNext ar (some r)
              | none => h'
            -- Am.rear = A1.rear; if (!Am.front) Am.front = A1.rear;
            let Am1 : queue := { Am' with rear := some r }
            let Am2 : queue := if Am1.front = none then { Am1 with front := some r } else Am1
            -- A1.rear = tmp; if (!A1.front) A1.front = tmp;
            let A1a : queue := { A1' with rear := some tmp' }
            let A1b : queue := if A1a.front = none then { A1a with front := some tmp' } else A1a
            -- tmp->next = NULL; A1.num--; Am.num++;
            Res.ok (h1.setNext tmp' none, { A1b with num := A1b.num - 1 },
              { Am2 with num := Am2.num + 1 })
          else Res.ok (h', A1', Am')

/-- Method `CacheSet::hit2q(blk)`; `fuel` bounds each of its two list scans. -/
def hit2q (fuel : Nat) (blk : BlkPtr) (h : Heap) (s : CacheSet) : Res (Heap × CacheSet) :=
  match findWay s.blks blk s.assoc with
  | Res.fault => Res.fault
  | Res.timeout => Res.timeout
  | Res.ok i =>
    if i = -1 then Res.ok (h, s)
    else
      match hit2qAm i fuel h s.Am with
      | Res.fault => Res.fault
      | Res.timeout => Res.timeout
      | Res.ok (h1, Am1) =>
        match hit2qA1 i fuel h1 s.A1 Am1 with
        | Res.fault => Res.fault
        | Res.timeout => Res.timeout
        | Res.ok (h2, A1', Am') => Res.ok (h2, { s with A1 := A1', Am := Am' })

/-- The `while (del)` loop of `miss2q`, the same for both queues.  Arguments:
recursion bound, store, `tmp`, `del`; the result holds the final `del` and
whether the loop left through `break`, having unlinked `del`. -/
def miss2qLoop (i : Int) : Nat → Heap → Nat → Option Nat → Res (Heap × Option Nat × Bool)
  | 0, _, _, _ => Res.timeout
  | _ + 1, h, _, none => Res.ok (h, none, false)
  | fuel + 1, h, tmp, some d =>
    if h.val d = i then Res.ok (h.setNext tmp (h.next d), some d, true)
    else miss2qLoop i fuel h d (h.next d)

/-- The `if (A1.front) ...` part of `miss2q`: the store, `A1`, `del` and
`finddel` after it. -/
def miss2qA1 (i : Int) (fuel : Nat) (h : Heap) (A1 : queue) :
    Res (Heap × queue × Option Nat × Bool) :=
  match A1.front with
  | none => Res.ok (h, A1, none, false)
  | some tmp =>
    -- del = tmp->next;
    if h.val tmp = i then
      -- A1.front = del; if (A1.front == NULL) A1.rear = NULL; del = tmp; A1.num--;
      let A1a : queue := { A1 with front := h.next tmp }
      let A1b : queue := if A1a.front = none then { A1a with rear := none } else A1a
      Res.ok (h, { A1b with num := A1b.num - 1 }, some tmp, true)
    else
      match miss2qLoop i fuel h tmp (h.next tmp) with
      | Res.fault => Res.fault
      | Res.timeout => Res.timeout
      | Res.ok (h', del, found) =>
        Res.ok (h', if found then { A1 with num := A1.num - 1 } else A1, del, found)

/-- The `if (!finddel && Am.front) ...` part of `miss2q`, entered with the
`del` and `finddel` left by the `A1` part. -/
def miss2qAm (i : Int) (fuel : Nat) (h : Heap) (Am : queue) (del : Option Nat) (finddel : Bool) :
    Res (Heap × queue × Option Nat × Bool) :=
  if finddel then Res.ok (h, Am, del, finddel)
  else
    match Am.front with
    | none => Res.ok (h, Am, del, finddel)
    | some tmp =>
      -- del = tmp->next;
      if h.val tmp = i then
        -- Am.front = del; del = tmp; Am.num--;
        Res.ok (h, { Am with front := h.next tmp, num := Am.num - 1 }, some tmp, true)
      else
        match miss2qLoop i fuel h tmp (h.next tmp) with
        | Res.fault => Res.fault
        | Res.timeout => Res.timeout
        | Res.ok (h', del', found) =>
          Res.ok (h', if found then { Am with num := Am.num - 1 } else Am, del', found)

/-- The `if (finddel) ...` part of `miss2q`: the detached node `del` goes to
the head of `A1` or of `Am`.  (`A1.front == NULL` cannot hold after
`A1.front = del`, so `A1.rear` is left alone.) -/
def miss2qReinsert (A1thres : Int) (h : Heap) (A1 Am : queue) (del : Option Nat) (finddel : Bool) :
    Res (Heap × queue × queue) :=
  if finddel then
    match del with
    | none => Res.fault
    | some d =>
      if A1.num ≥ A1thres then
        -- del->next = A1.front; A1.front = del; A1.num++;
        Res.ok (h.setNext d A1.front, { A1 with front := some d, num := A1.num + 1 }, Am)
      else
        -- del->next = Am.front; Am.front = del; Am.num++;
        Res.ok (h.setNext d Am.front, A1, { Am with front := some d, num := Am.num + 1 })
  else Res.ok (h, A1, Am)

/-- Method `CacheSet::miss2q(blk)`; `fuel` bounds each of its two list scans. -/
def miss2q (fuel : Nat) (blk : BlkPtr) (h : Heap) (s : CacheSet) : Res (Heap × CacheSet) :=
  match findWay s.blks blk s.assoc with
  | Res.fault => Res.fault
  | Res.timeout => Res.timeout
  | Res.ok i =>
    if i = -1 then Res.ok (h, s)
    else
      match miss2qA1 i fuel h s.A1 with
      | Res.fault => Res.fault
      | Res.timeout => Res.timeout
      | Res.ok (h1, A1', del1, found1) =>
        match miss2qAm i fuel h1 s.Am del1 found1 with
        | Res.fault => Res.fault
        | Res.timeout => Res.timeout
        | Res.ok (h2, Am', del2, found2) =>
          match miss2qReinsert s.A1thres h2 A1' Am' del2 found2 with
          | Res.fault => Res.fault
          | Res.timeout => Res.timeout
          | Res.ok (h3, A1r, Amr) => Res.ok (h3, { s with A1 := A1r, Am := Amr })

/-- Method `CacheSet::find2q()`: the returned index and the set afterwards (the node
store is only read). -/
def find2q (h : Heap) (s : CacheSet) : Res (Int × CacheSet) :=
  if s.A1.num ≥ s.A1thres then
    match s.A1.front with
    | none => Res.fault
    | some f =>
      -- index = A1.front->val; A1.front = A1.front->next;
      let A1a : queue := { s.A1 with front := h.next f }
      -- if (A1.front == NULL) A1.rear = NULL;
      let A1b : queue := if A1a.front = none then { A1a with rear := none } else A1a
      Res.ok (h.val f, { s with A1 := { A1b with num := A1b.num - 1 } })
  else
    match s.Am.front with
    | some f =>
      Res.ok (h.val f, { s with Am := { s.Am with front := h.next f, num := s.Am.num - 1 } })
    | none => Res.ok (0, s)

/-- Method `CacheSet::insert2q(blk)`. -/
def insert2q (blk : BlkPtr) (h : Heap) (s : CacheSet) : Res (Heap × CacheSet) :=
  match findWay s.blks blk s.assoc with
  | Res.fault => Res.fault
  | Res.timeout => Res.timeout
  | Res.ok i =>
    if i = -1 then Res.ok (h, s)
    else
      -- node *newnode = new node; newnode->val = i;
      let (newnode, h0) := h.alloc
      let h1 := h0.setVal newnode i
      -- if (A1.rear) A1.rear->next = newnode; else A1.front = newnode;
      let (h2, A1a) : Heap × queue := match s.A1.rear with
        | some r => (h1.setNext r (some newnode), s.A1)
        | none => (h1, { s.A1 with front := some newnode })
      -- A1.rear = newnode; A1.num++;
      Res.ok (h2, { s with A1 := { A1a with rear := some newnode, num := A1a.num + 1 } })

/-! ## Pseudo-LRU tree -/

/-- The assignment `a[k] = v` on an `int` array; `none` when `k` is outside it. -/
def writeAt (a : List Int) (k : Int) (v : Int) : Option (List Int) :=
  if 0 ≤ k ∧ k.toNat < a.length then some (a.set k.toNat v) else none

/-- The largest value of an `int` (32 bits). -/
def INT_MAX : Int := 2147483647

/-- The smallest value of an `int` (32 bits). -/
def INT_MIN : Int := -2147483648

/-- The value fits an `int`. -/
def inInt (x : Int) : Prop := INT_MIN ≤ x ∧ x ≤ INT_MAX

instance (x : Int) : Decidable (inInt x) := by
  unfold inInt
  infer_instance

/-- Every value of the list fits an `int`. -/
def allInInt (l : List Int) : Prop := ∀ x ∈ l, inInt x

instance (l : List Int) : Decidable (allInInt l) := by
  unfold allInInt
  infer_instance

/-- The `do ... while (li <= assoc)` loop shared by `setTREEDown` (`up = false`,
which stores `i / index`) and `setTREEUp` (`up = true`, which stores
`1 - (i / index)`).  Arguments: recursion bound, `MRU`, `i`, `index`, `last`,
`li`.  Every value computed in the body, sub-expressions included, has to fit
an `int`: a signed overflow is undefined, so a fault. -/
def setTREELoop (up : Bool) (assoc : Int) :
    Nat → List Int → Int → Int → Int → Int → Res (List Int)
  | 0, _, _, _, _, _ => Res.timeout
  | fuel + 1, MRU, i, index, last, li =>
    if index = 0 then Res.fault
    else
      let q := Int.tdiv i index
      -- MRU[last] = i / index;  or  MRU[last] = 1 - (i / index);
      let v := if up then 1 - q else q
      match writeAt MRU last v with
      | none => Res.fault
      | some MRU1 =>
        -- last = 2 * (last - li / 2 + 1) + i / index + li - 1;
        let e1 := last - Int.tdiv li 2
        let e2 := e1 + 1
        let e3 := 2 * e2
        let e4 := e3 + q
        let e5 := e4 + li
        let last1 := e5 - 1
        -- li *= 2;
        let li1 := li * 2
        -- i -= (i / index) * index;
        let e6 := q * index
        let i1 := i - e6
        -- index /= 2;
        let index1 := Int.tdiv index 2
        if ¬ allInInt [q, v, e1, e2, e3, e4, e5, last1, li1, e6, i1] then Res.fault
        else if li1 ≤ assoc then setTREELoop up assoc fuel MRU1 i1 index1 last1 li1
        else Res.ok MRU1

/-- The common body of `setTREEDown` and `setTREEUp`.  The loop doubles `li`
from 2 until it exceeds `assoc` (or overflows), so `assoc` bounds its number of
iterations. -/
def setTREE (up : Bool) (s : CacheSet) (blk : BlkPtr) : Res CacheSet :=
  match findWay s.blks blk s.assoc with
  | Res.fault => Res.fault
  | Res.timeout => Res.timeout
  | Res.ok i =>
    if i = -1 then Res.ok s
    else
      -- int index = assoc / 2; int last = 0; int li = 2;
      match setTREELoop up s.assoc s.assoc s.MRU i (Int.tdiv s.assoc 2) 0 2 with
      | Res.fault => Res.fault
      | Res.timeout => Res.timeout
      | Res.ok MRU => Res.ok { s with MRU := MRU }

/-- Method `CacheSet::setTREEDown(blk)`. -/
def setTREEDown (s : CacheSet) (blk : BlkPtr) : Res CacheSet := setTREE false s blk

/-- Method `CacheSet::setTREEUp(blk)`. -/
def setTREEUp (s : CacheSet) (blk : BlkPtr) : Res CacheSet := setTREE true s blk

/-- The walk formula of the specification: `half k w d` is the `d`-th most
significant bit of the `k`-bit representation of `w`. -/
def half (k w d : Nat) : Nat := (w / 2 ^ (k - 1 - d)) % 2

/-- The walk formula of the specification: the nodes `n_0 = 0`,
`n_{d+1} = 2 * n_d + 1 + half_d` on the path to way `w`. -/
def pathNode (k w : Nat) : Nat → Nat
  | 0 => 0
  | d + 1 => 2 * pathNode k w d + 1 + half k w d

/-- The value a tree operation stores for a half: the half itself for
`setTREEDown`, its complement for `setTREEUp`. -/
def storedBit (up : Bool) (b : Nat) : Int := if up then 1 - (b : Int) else (b : Int)


/-- A set of `n` ways, way `i` holding the block of address `i`, with an `MRU`
array of `n` zeros and empty queues. -/
def rangeSet (n : Nat) : CacheSet :=
  ⟨n, List.range n, List.replicate n 0, 0, ⟨0, none, none⟩, ⟨0, none, none⟩, 2⟩

/-- Reads `a[k]` on an `int` array; `none` when `k` is outside it. -/
def readAt (a : List Int) (k : Int) : Option Int :=
  if 0 ≤ k then a[k.toNat]? else none

/-- The `while (li < assoc)` loop of `findTREE`.  Arguments: recursion bound,
`last`, `li`; the result is the final `last` and `li`. -/
def findTREELoop (assoc : Int) (MRU : List Int) : Nat → Int → Int → Res (Int × Int)
  | 0, _, _ => Res.timeout
  | fuel + 1, last, li =>
    if li < assoc then
      match readAt MRU last with
      | none => Res.fault
      | some b =>
        -- last = 2 * (last - li / 2 + 1) + MRU[last] + li - 1; li *= 2;
        findTREELoop assoc MRU fuel (2 * (last - Int.tdiv li 2 + 1) + b + li - 1) (li * 2)
    else Res.ok (last, li)

/-- Method `CacheSet::findTREE()`.  The loop doubles `li` from 2 while it is
below `assoc`, so `assoc + 1` bounds the number of times its test is run. -/
def findTREE (s : CacheSet) : Res Int :=
  match findTREELoop s.assoc s.MRU (s.assoc + 1) 0 2 with
  | Res.fault => Res.fault
  | Res.timeout => Res.timeout
  | Res.ok (last, li) =>
    -- return 2 * (last - li / 2 + 1) + MRU[last];
    match readAt s.MRU last with
    | none => Res.fault
    | some b => Res.ok (2 * (last - Int.tdiv li 2 + 1) + b)

/-! ## MRU bit vector -/

/-- The loop `for (int j = 0; j < assoc; j++) MRU[j] = 0;` of `setMRUUp`, by
recursion on the number `assoc - j` of iterations left. -/
def clearMRU : Nat → Nat → List Int → Option (List Int)
  | 0, _, MRU => some MRU
  | n + 1, j, MRU =>
    match writeAt MRU (j : Int) 0 with
    | none => none
    | some MRU1 => clearMRU n (j + 1) MRU1

/-- Method `CacheSet::setMRUUp(blk)`: the scan for `blk`, then the body of its
`if (blks[i] == blk)`, run when the scan stopped at a way. -/
def setMRUUp (s : CacheSet) (blk : BlkPtr) : Res CacheSet :=
  match findWay s.blks blk s.assoc with
  | Res.fault => Res.fault
  | Res.timeout => Res.timeout
  | Res.ok i =>
    if i = -1 then Res.ok s
    else
      -- MRU[i] = 1; MRU_count += 1;
      match writeAt s.MRU i 1 with
      | none => Res.fault
      | some MRU1 =>
        let count1 := s.MRU_count + 1
        if count1 ≥ (s.assoc : Int) then
          -- for (j ...) MRU[j] = 0; MRU[i] = 1; MRU_count = 1;
          match clearMRU s.assoc 0 MRU1 with
          | none => Res.fault
          | some MRU2 =>
            match writeAt MRU2 i 1 with
            | none => Res.fault
            | some MRU3 => Res.ok { s with MRU := MRU3, MRU_count := 1 }
        else Res.ok { s with MRU := MRU1, MRU_count := count1 }

/-- Method `CacheSet::setMRUDown(blk)`. -/
def setMRUDown (s : CacheSet) (blk : BlkPtr) : Res CacheSet :=
  match findWay s.blks blk s.assoc with
  | Res.fault => Res.fault
  | Res.timeout => Res.timeout
  | Res.ok i =>
    if i = -1 then Res.ok s
    else
      -- if (MRU[i] == 1) MRU_count -= 1;
      match readAt s.MRU i with
      | none => Res.fault
      | some b =>
        let count1 := if b = 1 then s.MRU_count - 1 else s.MRU_count
        -- MRU[i] = 0;
        match writeAt s.MRU i 0 with
        | none => Res.fault
        | some MRU1 => Res.ok { s with MRU := MRU1, MRU_count := count1 }

/-- The loop `for (int i = 0; i < assoc; i++) if (MRU[i] == 0) return i;` of
`findMRU`, by recursion on the number `assoc - i` of iterations left; `none`
inside `ok` when the loop ends without returning. -/
def findMRULoop (MRU : List Int) : Nat → Nat → Res (Option Int)
  | 0, _ => Res.ok none
  | n + 1, i =>
    match MRU[i]? with
    | none => Res.fault
    | some b => if b = 0 then Res.ok (some (i : Int)) else findMRULoop MRU n (i + 1)

/-- Method `CacheSet::findMRU()`: the returned index, and whether it came from
the fallback `return assoc - 1` after the loop. -/
def findMRU (s : CacheSet) : Res (Int × Bool) :=
  match findMRULoop s.MRU s.assoc 0 with
  | Res.fault => Res.fault
  | Res.timeout => Res.timeout
  | Res.ok (some i) => Res.ok (i, false)
  | Res.ok none => Res.ok ((s.assoc : Int) - 1, true)

/-- A call of one of the two MRU update operations, on a way index. -/
inductive MRUOp where
  | up (w : Nat)
  | down (w : Nat)
  deriving DecidableEq, Repr

/-- Runs one MRU update; an operation on way `w` is passed the block `blks[w]`. -/
def stepMRU (op : MRUOp) (s : CacheSet) : Res CacheSet :=
  match op with
  | MRUOp.up w =>
    match s.blks[w]? with
    | none => Res.fault
    | some blk => setMRUUp s blk
  | MRUOp.down w =>
    match s.blks[w]? with
    | none => Res.fault
    | some blk => setMRUDown s blk

/-- Runs a sequence of MRU updates from a given state. -/
def runMRU : List MRUOp → CacheSet → Res CacheSet
  | [], s => Res.ok s
  | op :: ops, s =>
    match stepMRU op s with
    | Res.ok s' => runMRU ops s'
    | Res.fault => Res.fault
    | Res.timeout => Res.timeout

/-- The predicate of the MRU bit-vector invariant: every bit is 0 or 1,
`MRU_count` is the number of bits that are 1, and `0 <= MRU_count <= assoc`. -/
def MRUInv (s : CacheSet) : Prop :=
  (∀ b ∈ s.MRU, b = 0 ∨ b = 1) ∧ s.MRU_count = (s.MRU.count 1 : Nat) ∧
  0 ≤ s.MRU_count ∧ s.MRU_count ≤ (s.assoc : Int)

instance (s : CacheSet) : Decidable (MRUInv s) := by
  unfold MRUInv
  infer_instance

/-! ## Strict LRU reordering: the tail -/

/-- The `do ... while (next != blk)` loop of `moveToTail`.  The first argument
bounds the recursion; `assert(i >= 0)` is checked in every iteration. -/
def moveToTailLoop (blk : BlkPtr) :
    Nat → List BlkPtr → Int → BlkPtr → Res (List BlkPtr)
  | 0, _, _, _ => Res.timeout
  | fuel + 1, blks, i, next =>
    if 0 ≤ i then
      match blks[i.toNat]? with
      | none => Res.fault
      | some tmp =>
        if tmp ≠ blk then moveToTailLoop blk fuel (blks.set i.toNat next) (i - 1) tmp
        else Res.ok (blks.set i.toNat next)
    else Res.fault

/-- Method `CacheSet::moveToTail(blk)`. -/
def moveToTail (s : CacheSet) (blk : BlkPtr) : Res CacheSet :=
  -- if (blks[assoc - 1] == blk) return;
  if (s.assoc : Int) - 1 < 0 then Res.fault
  else
    match s.blks[s.assoc - 1]? with
    | none => Res.fault
    | some bl =>
      if bl = blk then Res.ok s
      else
        match moveToTailLoop blk (s.assoc + 1) s.blks ((s.assoc : Int) - 1) blk with
        | Res.ok blks => Res.ok { s with blks := blks }
        | Res.fault => Res.fault
        | Res.timeout => Res.timeout

/-- Runs a second piece of code on the result of a first one. -/
def Res.bind {α β : Type} (r : Res α) (f : α → Res β) : Res β :=
  match r with
  | Res.ok a => f a
  | Res.fault => Res.fault
  | Res.timeout => Res.timeout

/-- The four-way set of the tree fixture, with `blks[i]` the block `10 + i` of
way `i` and a given content of the `MRU` array. -/
def treeSet4 (MRU : List Int) : CacheSet :=
  ⟨4, [10, 11, 12, 13], MRU, 0, ⟨0, none, none⟩, ⟨0, none, none⟩, 2⟩

/-- The calls of the tree fixture: `setTREEDown` on ways 0, 1, 2, then
`setTREEUp` on way 3. -/
def treeFixture (MRU : List Int) : Res CacheSet :=
  (((setTREEDown (treeSet4 MRU) 10).bind (fun s => setTREEDown s 11)).bind
    (fun s => setTREEDown s 12)).bind (fun s => setTREEUp s 13)

/-- The one-way set, with a given content of the `MRU` array. -/
def treeSet1 (MRU : List Int) : CacheSet :=
  ⟨1, [10], MRU, 0, ⟨0, none, none⟩, ⟨0, none, none⟩, 1⟩

/-- The way an MRU update is called on. -/
def MRUOp.way : MRUOp → Nat
  | MRUOp.up w => w
  | MRUOp.down w => w

/-- The bound that keeps a bit of the MRU vector clear: the array has `assoc`
entries, each 0 or 1, and the number of entries that are 1 is at most
`MRU_count`, which is below `assoc`. -/
def MRUSafe (s : CacheSet) : Prop :=
  s.MRU.length = s.assoc ∧ (∀ b ∈ s.MRU, b = 0 ∨ b = 1) ∧
  ((s.MRU.count 1 : Nat) : Int) ≤ s.MRU_count ∧ s.MRU_count < (s.assoc : Int)

/-! ## Reading a queue -/

/-- The node reached from pointer `p` after following `n` `next` links
(`NULL` when the chain ends earlier). -/
def walk (h : Heap) : Nat → Option Nat → Option Nat
  | 0, p => p
  | _ + 1, none => none
  | n + 1, some a => walk h n (h.next a)

/-- Way `w` is present in the queue with front `p`: some node reachable from
`p` by following `next` links holds `w`. -/
def Present (h : Heap) (p : Option Nat) (w : Int) : Prop :=
  ∃ n a, walk h n p = some a ∧ h.val a = w

/-- The `next`-chain from pointer `p` consists of exactly the nodes `l`, in
order, and ends in `NULL`. -/
def Chain (h : Heap) : Option Nat → List Nat → Prop
  | p, [] => p = none
  | p, a :: l => p = some a ∧ Chain h (h.next a) l

/-- The way indices held by a list of nodes. -/
def vals (h : Heap) (l : List Nat) : List Int := l.map h.val

/-- The contents of the queue with front `p`, read by following at most `n`
`next` links from `p` to `NULL`; `none` when `NULL` is not reached. -/
def contents (h : Heap) : Nat → Option Nat → Option (List Int)
  | _, none => some []
  | 0, some _ => none
  | n + 1, some a =>
    match contents h n (h.next a) with
    | none => none
    | some l => some (h.val a :: l)

/-! ## Sequences of 2Q calls -/

/-- A call of one of the four 2Q operations, on a way index. -/
inductive Op where
  | insert (w : Nat)
  | hit (w : Nat)
  | miss (w : Nat)
  | find
  deriving DecidableEq, Repr

/-- The set before any operation: both queues as `struct queue` initialises
them (`num = 0`, `front = rear = NULL`), and the reset state of the `MRU`
array, `assoc` zeros with `MRU_count = 0`. -/
def initSet (assoc : Nat) (blks : List BlkPtr) (A1thres : Int) : CacheSet :=
  ⟨assoc, blks, List.replicate assoc 0, 0, ⟨0, none, none⟩, ⟨0, none, none⟩, A1thres⟩

/-- Runs one call; an operation on way `w` is passed the block `blks[w]`. -/
def step (fuel : Nat) (op : Op) (h : Heap) (s : CacheSet) : Res (Heap × CacheSet) :=
  match op with
  | Op.insert w =>
    match s.blks[w]? with
    | none => Res.fault
    | some blk => insert2q blk h s
  | Op.hit w =>
    match s.blks[w]? with
    | none => Res.fault
    | some blk => hit2q fuel blk h s
  | Op.miss w =>
    match s.blks[w]? with
    | none => Res.fault
    | some blk => miss2q fuel blk h s
  | Op.find =>
    match find2q h s with
    | Res.ok (_, s') => Res.ok (h, s')
    | Res.fault => Res.fault
    | Res.timeout => Res.timeout

/-- Runs a sequence of calls from a given state. -/
def run (fuel : Nat) : List Op → Heap → CacheSet → Res (Heap × CacheSet)
  | [], h, s => Res.ok (h, s)
  | op :: ops, h, s =>
    match step fuel op h s with
    | Res.ok (h', s') => run fuel ops h' s'
    | Res.fault => Res.fault
    | Res.timeout => Res.timeout

/-- The observable part of a 2Q state: the contents and count of `A1`,
then those of `Am`. -/
def view (n : Nat) (st : Heap × CacheSet) : Option (List Int) × Int × Option (List Int) × Int :=
  (contents st.1 n st.2.A1.front, st.2.A1.num, contents st.1 n st.2.Am.front, st.2.Am.num)

/-- Applies a function to the result of a run. -/
def Res.map {α β : Type} (f : α → β) : Res α → Res β
  | Res.ok a => Res.ok (f a)
  | Res.fault => Res.fault
  | Res.timeout => Res.timeout

/-- Runs a sequence of calls on a set, from the empty node store, and then
calls `find2q`: the returned index, and the view of the state it leaves (scans
bounded by 10 steps, queues read up to 10 links). -/
def findAfter (s : CacheSet) (ops : List Op) :
    Res (Int × Option (List Int) × Int × Option (List Int) × Int) :=
  match run 10 ops Heap.empty s with
  | Res.ok (h, s1) =>
    match find2q h s1 with
    | Res.ok (v, s2) => Res.ok (v, view 10 (h, s2))
    | Res.fault => Res.fault
    | Res.timeout => Res.timeout
  | Res.fault => Res.fault
  | Res.timeout => Res.timeout

/-- A 2Q state is well formed, with `l1` the nodes of `A1` and `l2` those of
`Am`: both `next`-chains end in `NULL`, they share no node, no way index occurs
twice, each count is the length of its chain, and each `rear` is the last node
of its chain (`NULL` for an empty one). -/
def WellFormed2Q (h : Heap) (s : CacheSet) (l1 l2 : List Nat) : Prop :=
  Chain h s.A1.front l1 ∧ Chain h s.Am.front l2 ∧ (∀ a ∈ l1, a ∉ l2) ∧
  (vals h (l1 ++ l2)).Nodup ∧ s.A1.num = l1.length ∧ s.Am.num = l2.length ∧
  s.A1.rear = l1.getLast? ∧ s.Am.rear = l2.getLast?

/-- Whether a list of nodes is the chain from a pointer can be computed. -/
def Chain.decide (h : Heap) : (p : Option Nat) → (l : List Nat) → Decidable (Chain h p l)
  | p, [] => inferInstanceAs (Decidable (p = none))
  | p, a :: l =>
    match Chain.decide h (h.next a) l with
    | isTrue ht =>
      if hp : p = some a then isTrue ⟨hp, ht⟩ else isFalse (fun hc => hp hc.1)
    | isFalse hf => isFalse (fun hc => hf hc.2)

instance (h : Heap) (p : Option Nat) (l : List Nat) : Decidable (Chain h p l) :=
  Chain.decide h p l

instance (h : Heap) (s : CacheSet) (l1 l2 : List Nat) : Decidable (WellFormed2Q h s l1 l2) := by
  unfold WellFormed2Q
  infer_instance

/-- A node store given by the list of its objects, at addresses `0, 1, ...`. -/
def heapOf (cells : List node) : Heap :=
  ⟨fun a => cells.getD a ⟨0, none⟩, cells.length⟩

/-! # Theorems -/

/-! ## Associative lookup -/

theorem findBlkLoop_hit (mem : BlkPtr → CacheBlk) (assoc : Nat) (blks : List BlkPtr)
    (tag : Nat) (sec : Bool) (j : Nat) (b : BlkPtr) (hb : blks[j]? = some b)
    (hm : blkMatches mem tag sec b = true)
    (hlow : ∀ j' b', j' < j → blks[j']? = some b' → blkMatches mem tag sec b' = false) :
    ∀ n i, i ≤ j → j < i + n →
      findBlkLoop mem assoc blks tag sec n i = Res.ok (some b, (j : Int)) := by
  intro n
  induction n with
  | zero => intro i h1 h2; omega
  | succ n ih =>
    intro i h1 h2
    rcases Nat.eq_or_lt_of_le h1 with h | h
    · subst h
      simp [findBlkLoop, hb, hm]
    · have hi : i < blks.length := by
        have := (List.getElem?_eq_some_iff.mp hb).1
        omega
      have hget : blks[i]? = some blks[i] := List.getElem?_eq_getElem hi
      have hno := hlow i blks[i] h hget
      simp only [findBlkLoop, hget, hno]
      exact ih (i + 1) (by omega) (by omega)

theorem findBlkLoop_miss (mem : BlkPtr → CacheBlk) (assoc : Nat) (blks : List BlkPtr)
    (tag : Nat) (sec : Bool)
    (hno : ∀ b ∈ blks, blkMatches mem tag sec b = false) :
    ∀ n i, i + n ≤ blks.length →
      findBlkLoop mem assoc blks tag sec n i = Res.ok (none, (assoc : Int)) := by
  intro n
  induction n with
  | zero => intro i _; rfl
  | succ n ih =>
    intro i h
    have hi : i < blks.length := by omega
    have hget : blks[i]? = some blks[i] := List.getElem?_eq_getElem hi
    have := hno blks[i] (List.getElem_mem hi)
    simp only [findBlkLoop, hget, this]
    exact ih (i + 1) (by omega)

theorem blkMatches_iff (mem : BlkPtr → CacheBlk) (tag : Nat) (sec : Bool) (b : BlkPtr) :
    blkMatches mem tag sec b = true ↔
      (mem b).tag = tag ∧ (mem b).valid = true ∧ (mem b).secure = sec := by
  simp [blkMatches, and_assoc]

/-- C1: in a set of `assoc` ways (any `assoc`, so also every `assoc >= 1`), when some way holds a block with the
queried tag that is valid and has the queried secure flag, `findBlk` returns
the block of the lowest such way and sets `way_id` to its index; when no way
matches it returns `NULL` with `way_id = assoc`.  (`findBlk` is `const`: it has
no effect on the way array.) -/
theorem findBlk_lowest_match (mem : BlkPtr → CacheBlk) (s : CacheSet) (tag : Nat) (sec : Bool)
    (hlen : s.blks.length = s.assoc) :
    (∀ (i : Nat) (b : BlkPtr), s.blks[i]? = some b →
        ((mem b).tag = tag ∧ (mem b).valid = true ∧ (mem b).secure = sec) →
        (∀ (j : Nat) (b' : BlkPtr), j < i → s.blks[j]? = some b' →
          ¬ ((mem b').tag = tag ∧ (mem b').valid = true ∧ (mem b').secure = sec)) →
        findBlk mem s tag sec = Res.ok (some b, (i : Int)))
    ∧ ((∀ (i : Nat) (b : BlkPtr), s.blks[i]? = some b →
          ¬ ((mem b).tag = tag ∧ (mem b).valid = true ∧ (mem b).secure = sec)) →
        findBlk mem s tag sec = Res.ok (none, (s.assoc : Int))) := by
  constructor
  · intro i b hb hm hlow
    have hi : i < s.blks.length := (List.getElem?_eq_some_iff.mp hb).1
    apply findBlkLoop_hit mem s.assoc s.blks tag sec i b hb ((blkMatches_iff _ _ _ _).mpr hm)
    · intro j b' hj hb'
      have := hlow j b' hj hb'
      rw [← blkMatches_iff] at this
      simpa using this
    · omega
    · omega
  · intro hno
    apply findBlkLoop_miss
    · intro b hb
      obtain ⟨i, hi, rfl⟩ := List.getElem_of_mem hb
      have := hno i _ (List.getElem?_eq_getElem hi)
      rw [← blkMatches_iff] at this
      simpa using this
    · omega

/-- Witness for C1 on a four-way set in which ways 1 and 3 both match. -/
theorem findBlk_lowest_match_witness :
    findBlk (fun p => if p = 11 ∨ p = 13 then ⟨7, true, false⟩ else ⟨7, false, false⟩)
        ⟨4, [10, 11, 12, 13], [], 0, ⟨0, none, none⟩, ⟨0, none, none⟩, 2⟩ 7 false
      = Res.ok (some 11, 1) :=
  (findBlk_lowest_match (fun p => if p = 11 ∨ p = 13 then ⟨7, true, false⟩ else ⟨7, false, false⟩)
    ⟨4, [10, 11, 12, 13], [], 0, ⟨0, none, none⟩, ⟨0, none, none⟩, 2⟩ 7 false
    (by decide)).1 1 11 (by decide) (by decide)
    (by
      intro j b' hj hb'
      have hj0 : j = 0 := by omega
      subst hj0
      simp at hb'
      subst hb'
      decide)

/-! ## Strict LRU reordering -/

theorem moveToHeadLoop_spec (assoc : Nat) (blk : BlkPtr) :
    ∀ (rest pre : List BlkPtr) (x : BlkPtr) (fuel : Nat), blk ∈ rest →
      rest.length < fuel + 1 → pre.length + rest.length ≤ assoc → 0 < fuel →
      moveToHeadLoop assoc blk fuel (pre ++ rest) pre.length x
        = Res.ok (pre ++ x :: rest.erase blk) := by
  intro rest
  induction rest with
  | nil => intro pre x fuel h; simp at h
  | cons t rest ih =>
    intro pre x fuel hmem hfuel hlen hpos
    obtain ⟨f, rfl⟩ : ∃ f, fuel = f + 1 := ⟨fuel - 1, by omega⟩
    have hi : pre.length < assoc := by simp at hlen; omega
    have hget : (pre ++ t :: rest)[pre.length]? = some t := by
      rw [List.getElem?_append_right (le_refl _)]; simp
    have hset : (pre ++ t :: rest).set pre.length x = pre ++ x :: rest := by simp
    by_cases ht : t = blk
    · subst ht
      simp [moveToHeadLoop, hi, hget, hset]
    · have hmem' : blk ∈ rest := by
        rcases List.mem_cons.mp hmem with h | h
        · exact absurd h.symm ht
        · exact h
      have hrec := ih (pre ++ [x]) t f hmem' (by simp at hfuel ⊢; omega)
        (by simp at hlen ⊢; omega)
        (by have := List.length_pos_of_mem hmem'; simp at hfuel; omega)
      simp only [moveToHeadLoop, hi, hget, hset, if_true]
      simp only [List.length_append, List.length_singleton, List.append_assoc,
        List.singleton_append] at hrec
      rw [if_pos ht, hrec]
      have : (t :: rest).erase blk = t :: rest.erase blk := by
        simp [List.erase_cons, ht]
      rw [this]

/-- C2: when `blk` occurs in the way array (of length `assoc`, entries pairwise
distinct), `moveToHead(blk)` returns normally (the `assert` holds throughout)
and leaves the array equal to `blk` followed by the old array with `blk`
removed; the other data members are untouched, and the call changes nothing
when `blk` was already at index 0. -/
theorem moveToHead_spec (s : CacheSet) (blk : BlkPtr)
    (hlen : s.blks.length = s.assoc) (hnodup : s.blks.Nodup) (hmem : blk ∈ s.blks) :
    moveToHead s blk = Res.ok { s with blks := blk :: s.blks.erase blk }
    ∧ (blk :: s.blks.erase blk).head? = some blk
    ∧ s.blks.erase blk = s.blks.filter (fun b => b ≠ blk)
    ∧ (s.blks[0]? = some blk → moveToHead s blk = Res.ok s) := by
  have hfilter : s.blks.erase blk = s.blks.filter (fun b => b ≠ blk) := by
    rw [List.Nodup.erase_eq_filter hnodup]
    congr 1
    funext b
    rw [Bool.eq_iff_iff]
    simp [bne]
  refine ⟨?_, rfl, hfilter, ?_⟩
  · cases hb : s.blks with
    | nil => rw [hb] at hmem; simp at hmem
    | cons b0 tl =>
      by_cases h0 : b0 = blk
      · subst h0
        have he : (b0 :: tl).erase b0 = tl := by simp
        have hs : ({ s with blks := b0 :: tl } : CacheSet) = s := by
          rw [← hb]
        simp only [moveToHead, hb, he, hs]
        simp
      · have hloop := moveToHeadLoop_spec s.assoc blk (b0 :: tl) [] blk (s.assoc + 1)
          (by rw [← hb]; exact hmem) (by rw [← hb, hlen]; omega)
          (by rw [← hb, hlen]; simp) (by omega)
        simp only [List.nil_append, List.length_nil] at hloop
        simp only [moveToHead, hb] at hloop ⊢
        simp [h0, hloop]
  · intro h
    simp [moveToHead, h]

/-- Witness for C2: promoting the block of way 2 in a four-way set. -/
theorem moveToHead_spec_witness :
    moveToHead ⟨4, [10, 11, 12, 13], [], 0, ⟨0, none, none⟩, ⟨0, none, none⟩, 2⟩ 12
      = Res.ok ⟨4, [12, 10, 11, 13], [], 0, ⟨0, none, none⟩, ⟨0, none, none⟩, 2⟩ :=
  (moveToHead_spec ⟨4, [10, 11, 12, 13], [], 0, ⟨0, none, none⟩, ⟨0, none, none⟩, 2⟩ 12
    (by decide) (by decide) (by decide)).1

/-! ## Locating the way of a block -/

theorem findWay_of_getElem (blks : List BlkPtr) (blk : BlkPtr) (hnodup : blks.Nodup)
    (w : Nat) (hw : blks[w]? = some blk) :
    ∀ n, w < n → n ≤ blks.length → findWay blks blk n = Res.ok (w : Int) := by
  intro n
  induction n with
  | zero => intro h; omega
  | succ n ih =>
    intro h1 h2
    have hn : n < blks.length := by omega
    have hget : blks[n]? = some blks[n] := List.getElem?_eq_getElem hn
    by_cases hb : blks[n] = blk
    · have hwl : w < blks.length := by omega
      have hw' : blks[w] = blk := by
        have := List.getElem?_eq_getElem hwl
        rw [this] at hw
        exact Option.some.inj hw
      have : w = n := (List.Nodup.getElem_inj_iff hnodup).mp (hw'.trans hb.symm)
      subst this
      simp [findWay, hget, hb]
    · have hne : w ≠ n := by
        rintro rfl
        rw [hget] at hw
        exact hb (Option.some.inj hw)
      simp only [findWay, hget, hb, if_false]
      exact ih (by omega) (by omega)

/-! ## Chains in the node store -/

theorem Heap.val_setNext (h : Heap) (p : Nat) (q : Option Nat) (a : Nat) :
    (h.setNext p q).val a = h.val a := by
  unfold Heap.setNext Heap.val
  by_cases hap : a = p
  · subst hap; simp
  · simp [Function.update_noteq hap]

theorem Heap.next_setNext_same (h : Heap) (p : Nat) (q : Option Nat) :
    (h.setNext p q).next p = q := by
  simp [Heap.setNext, Heap.next]

theorem Heap.next_setNext_ne (h : Heap) (p : Nat) (q : Option Nat) (a : Nat) (hap : a ≠ p) :
    (h.setNext p q).next a = h.next a := by
  simp [Heap.setNext, Heap.next, Function.update_noteq hap]

theorem vals_setNext (h : Heap) (p : Nat) (q : Option Nat) (l : List Nat) :
    vals (h.setNext p q) l = vals h l := by
  unfold vals
  exact List.map_congr_left (fun a _ => Heap.val_setNext h p q a)

theorem Chain.congr (h h' : Heap) :
    ∀ (l : List Nat) (p : Option Nat), (∀ a ∈ l, h'.next a = h.next a) →
      Chain h p l → Chain h' p l := by
  intro l
  induction l with
  | nil => intro p _ hc; exact hc
  | cons a l ih =>
    intro p hl hc
    refine ⟨hc.1, ?_⟩
    rw [hl a (List.mem_cons_self a l)]
    exact ih _ (fun b hb => hl b (List.mem_cons_of_mem a hb)) hc.2

theorem Chain.setNext (h : Heap) (x : Nat) (q : Option Nat) (l : List Nat) (p : Option Nat)
    (hx : x ∉ l) (hc : Chain h p l) : Chain (h.setNext x q) p l := by
  apply Chain.congr h _ l p _ hc
  intro a ha
  apply Heap.next_setNext_ne
  rintro rfl
  exact hx ha

theorem Chain.unique (h : Heap) :
    ∀ (l l' : List Nat) (p : Option Nat), Chain h p l → Chain h p l' → l = l' := by
  intro l
  induction l with
  | nil =>
    intro l' p hc hc'
    cases l' with
    | nil => rfl
    | cons b l' =>
      have h1 : p = none := hc
      have h2 : p = some b := hc'.1
      rw [h1] at h2
      cases h2
  | cons a l ih =>
    intro l' p hc hc'
    cases l' with
    | nil =>
      have h1 : p = none := hc'
      have h2 : p = some a := hc.1
      rw [h1] at h2
      cases h2
    | cons b l' =>
      have h2 : some a = some b := hc.1.symm.trans hc'.1
      cases h2
      rw [ih l' _ hc.2 hc'.2]

theorem Chain.suffix (h : Heap) :
    ∀ (l1 : List Nat) (a : Nat) (l2 : List Nat) (p : Option Nat),
      Chain h p (l1 ++ a :: l2) → Chain h (some a) (a :: l2) := by
  intro l1
  induction l1 with
  | nil =>
    intro a l2 p hc
    exact ⟨rfl, hc.2⟩
  | cons b l1 ih =>
    intro a l2 p hc
    exact ih a l2 _ hc.2

theorem Chain.nodup (h : Heap) :
    ∀ (l : List Nat) (p : Option Nat), Chain h p l → l.Nodup := by
  intro l
  induction l with
  | nil => intro _ _; exact List.nodup_nil
  | cons a l ih =>
    intro p hc
    refine List.nodup_cons.mpr ⟨?_, ih _ hc.2⟩
    intro ha
    obtain ⟨l1, l2, rfl⟩ := List.append_of_mem ha
    have hs : Chain h (some a) (a :: l2) := Chain.suffix h l1 a l2 _ hc.2
    have hfull : Chain h (some a) (a :: (l1 ++ a :: l2)) := ⟨rfl, hc.2⟩
    have := Chain.unique h _ _ _ hs hfull
    have hlen := congrArg List.length this
    simp at hlen
    omega

theorem present_of_chain (h : Heap) :
    ∀ (l : List Nat) (p : Option Nat) (w : Int), Chain h p l →
      (Present h p w ↔ w ∈ vals h l) := by
  intro l
  induction l with
  | nil =>
    intro p w hc
    have hp : p = none := hc
    subst hp
    constructor
    · rintro ⟨n, a, hwalk, _⟩
      cases n <;> simp [walk] at hwalk
    · intro hw
      simp [vals] at hw
  | cons b l ih =>
    intro p w hc
    have hp : p = some b := hc.1
    subst hp
    constructor
    · rintro ⟨n, a, hwalk, hval⟩
      cases n with
      | zero =>
        simp only [walk, Option.some.injEq] at hwalk
        subst hwalk
        simp [vals, hval]
      | succ n =>
        have : Present h (h.next b) w := ⟨n, a, hwalk, hval⟩
        have := (ih _ w hc.2).mp this
        simp only [vals, List.map_cons, List.mem_cons]
        exact Or.inr this
    · intro hw
      simp only [vals, List.map_cons, List.mem_cons] at hw
      rcases hw with hw | hw
      · exact ⟨0, b, rfl, hw.symm⟩
      · obtain ⟨n, a, hwalk, hval⟩ := (ih _ w hc.2).mpr hw
        exact ⟨n + 1, a, hwalk, hval⟩


/-! ## Two-queue policy: concrete runs -/

/-- C3 (evaluation at the failing input): with `assoc = 4`, `A1thres = 2`, from
the empty state, `insert2q` on way 0 (queues empty), `insert2q` on way 1 (`A1`
holds only way 0) and `hit2q` on way 0 end in a state where way 1 is reachable
both from `A1.front` and from `Am.front`: `hit2q` moved the node of way 0 to
`Am` without clearing its `next` link. -/
theorem hit2q_breaks_exclusivity :
    (run 10 [Op.insert 0] Heap.empty (initSet 4 [10, 11, 12, 13] 2)).map (view 10)
        = Res.ok (some [0], 1, some [], 0)
    ∧ ∃ st, run 10 [Op.insert 0, Op.insert 1, Op.hit 0] Heap.empty
          (initSet 4 [10, 11, 12, 13] 2) = Res.ok st
        ∧ Present st.1 st.2.A1.front 1 ∧ Present st.1 st.2.Am.front 1 :=
  ⟨by decide, _, rfl, ⟨0, 1, by decide, by decide⟩, ⟨1, 1, by decide, by decide⟩⟩

/-- C4 (evaluation at the failing input): in the 2Q admission scenario
(`assoc = 4`, `A1thres = 2`, `blks[i]` the block of way `i`, from the empty
state), after `insert2q` on ways 0, 1, 2 the first `find2q` returns 0 and
leaves `A1 = [1, 2]` (count 2) with `Am` empty, as stated.  Then `hit2q` on
way 1 leaves `A1 = [2]` (count 1) and `Am` with count 1 but reading `[1, 2]`,
not `[1]`: the moved node keeps its `next` link to the node of way 2.  The
next `find2q` returns 1 and leaves `Am` reading `[2]` with count 0, not empty.
The last `find2q` returns 2, taken from `Am.front`, and leaves `A1 = [2]` with
count 1 and `Am` with count -1, not both queues empty with counts 0. -/
theorem scenario2q_as_stated_fails :
    findAfter (initSet 4 [10, 11, 12, 13] 2) [Op.insert 0, Op.insert 1, Op.insert 2]
      = Res.ok (0, some [1, 2], 2, some [], 0)
    ∧ (run 10 [Op.insert 0, Op.insert 1, Op.insert 2, Op.find, Op.hit 1] Heap.empty
        (initSet 4 [10, 11, 12, 13] 2)).map (view 10)
      = Res.ok (some [2], 1, some [1, 2], 1)
    ∧ (run 10 [Op.insert 0, Op.insert 1, Op.insert 2, Op.find, Op.hit 1] Heap.empty
        (initSet 4 [10, 11, 12, 13] 2)).map (view 10)
      ≠ Res.ok (some [2], 1, some [1], 1)
    ∧ findAfter (initSet 4 [10, 11, 12, 13] 2)
        [Op.insert 0, Op.insert 1, Op.insert 2, Op.find, Op.hit 1]
      = Res.ok (1, some [2], 1, some [2], 0)
    ∧ (run 10 [Op.insert 0, Op.insert 1, Op.insert 2, Op.find, Op.hit 1, Op.find] Heap.empty
        (initSet 4 [10, 11, 12, 13] 2)).map (view 10)
      = Res.ok (some [2], 1, some [2], 0)
    ∧ findAfter (initSet 4 [10, 11, 12, 13] 2)
        [Op.insert 0, Op.insert 1, Op.insert 2, Op.find, Op.hit 1, Op.find]
      = Res.ok (2, some [2], 1, some [], -1)
    ∧ (run 10 [Op.insert 0, Op.insert 1, Op.insert 2, Op.find, Op.hit 1, Op.find, Op.find]
        Heap.empty (initSet 4 [10, 11, 12, 13] 2)).map (view 10)
      = Res.ok (some [2], 1, some [], -1)
    ∧ (run 10 [Op.insert 0, Op.insert 1, Op.insert 2, Op.find, Op.hit 1, Op.find, Op.find]
        Heap.empty (initSet 4 [10, 11, 12, 13] 2)).map (view 10)
      ≠ Res.ok (some [], 0, some [], 0) := by
  refine ⟨by decide, by decide, by decide, by decide, by decide, by decide, by decide,
    by decide⟩

/-- C5 (counterexample): on the empty 2Q state of a four-way set with
`A1thres = 2`, `find2q` returns 0, which is a way index and not the sentinel
`assoc = 4`; with `A1thres = 0` it dereferences the `NULL` front of `A1`. -/
theorem find2q_empty_no_sentinel :
    find2q Heap.empty (initSet 4 [10, 11, 12, 13] 2)
      = Res.ok (0, initSet 4 [10, 11, 12, 13] 2)
    ∧ find2q Heap.empty (initSet 4 [10, 11, 12, 13] 2)
      ≠ Res.ok (4, initSet 4 [10, 11, 12, 13] 2)
    ∧ find2q Heap.empty (initSet 4 [10, 11, 12, 13] 0) = Res.fault := by
  refine ⟨by decide, by decide, by decide⟩

/-- C5 (amended): for every `A1thres >= 1` (so for every `assoc >= 1` and
`1 <= A1thres <= assoc`), when both queues are empty (`A1.num = 0`, `Am.front`
`NULL`), `find2q` completes without dereferencing a front pointer, returns 0
and leaves the set unchanged. -/
theorem find2q_empty (h : Heap) (s : CacheSet) (hthres : 1 ≤ s.A1thres)
    (hA1 : s.A1.num = 0) (hAm : s.Am.front = none) :
    find2q h s = Res.ok (0, s) := by
  have hlt : ¬ (s.A1.num ≥ s.A1thres) := by omega
  simp [find2q, hlt, hAm]

/-- Witness for C5 (amended): the empty state of a four-way set, `A1thres = 2`. -/
theorem find2q_empty_witness :
    find2q Heap.empty (initSet 4 [10, 11, 12, 13] 2)
      = Res.ok (0, initSet 4 [10, 11, 12, 13] 2) :=
  find2q_empty Heap.empty (initSet 4 [10, 11, 12, 13] 2) (by decide) (by decide) (by decide)

/-- C6 (evaluation at failing inputs): in the well-formed state `A1 = [0, 1]`,
`Am = []` reached by two inserts, `hit2q` on way 0 leaves `Am` reading `[0, 1]`
instead of `[0]`; in the well-formed state `A1 = []`, `Am = [1, 0]`, `hit2q` on
way 1 leaves the chain of `Am` cyclic: reading it never reaches `NULL`
(`contents` yields `none`), instead of reading `[0, 1]`. -/
theorem hit2q_keeps_stale_next :
    (∃ st, run 10 [Op.insert 0, Op.insert 1] Heap.empty (initSet 4 [10, 11, 12, 13] 2)
          = Res.ok st
        ∧ WellFormed2Q st.1 st.2 [0, 1] []
        ∧ (hit2q 10 10 st.1 st.2).map (view 10) = Res.ok (some [1], 1, some [0, 1], 1))
    ∧ (∃ st, run 10 [Op.insert 0, Op.insert 1, Op.hit 1, Op.hit 0] Heap.empty
          (initSet 4 [10, 11, 12, 13] 2) = Res.ok st
        ∧ WellFormed2Q st.1 st.2 [] [1, 0]
        ∧ (hit2q 10 11 st.1 st.2).map (view 10) = Res.ok (some [], 0, none, 2)) :=
  ⟨⟨_, rfl, by decide, by decide⟩, ⟨_, rfl, by decide, by decide⟩⟩

/-- C9 (evaluation at the failing input): with `assoc = 4`, `A1thres = 1`,
after `insert2q` on ways 0 and 1 and `miss2q` on way 1 the queue `A1` reads
`[1, 0]` (count 2) while `A1.rear` still points at the node of way 1;
`insert2q` on way 2, which is in neither queue, then leaves `A1` reading
`[1, 2]` with count 3, not `[1, 0, 2]`. -/
theorem insert2q_after_miss2q_drops_entry :
    (run 10 [Op.insert 0, Op.insert 1, Op.miss 1] Heap.empty
        (initSet 4 [10, 11, 12, 13] 1)).map (view 10)
      = Res.ok (some [1, 0], 2, some [], 0)
    ∧ (run 10 [Op.insert 0, Op.insert 1, Op.miss 1, Op.insert 2] Heap.empty
        (initSet 4 [10, 11, 12, 13] 1)).map (view 10)
      = Res.ok (some [1, 2], 3, some [], 0) := by
  refine ⟨by decide, by decide⟩

/-! ## Two-queue policy: `find2q` -/

/-- C7: in a state whose two `next`-chains end in `NULL` (`l1` the nodes of
`A1`, `l2` those of `Am`): if `A1.num >= A1thres` and `A1` is not empty,
`find2q` returns the way at the head of `A1`, `A1` becomes its old tail with
`num` one less, and `Am` is unchanged; if `A1.num < A1thres` and `Am` is not
empty, `find2q` returns the way at the head of `Am`, `Am` becomes its old tail
with `num` one less, and `A1` is unchanged.  The node store is only read. -/
theorem find2q_selection (h : Heap) (s : CacheSet) (l1 l2 : List Nat)
    (hc1 : Chain h s.A1.front l1) (hc2 : Chain h s.Am.front l2) :
    (∀ a t, l1 = a :: t → s.A1thres ≤ s.A1.num →
      ∃ s', find2q h s = Res.ok (h.val a, s') ∧ Chain h s'.A1.front t ∧
        vals h t = (vals h l1).tail ∧ s'.A1.num = s.A1.num - 1 ∧
        s'.Am = s.Am ∧ Chain h s'.Am.front l2)
    ∧ (∀ a t, l2 = a :: t → s.A1.num < s.A1thres →
      ∃ s', find2q h s = Res.ok (h.val a, s') ∧ Chain h s'.Am.front t ∧
        vals h t = (vals h l2).tail ∧ s'.Am.num = s.Am.num - 1 ∧
        s'.A1 = s.A1 ∧ Chain h s'.A1.front l1) := by
  constructor
  · intro a t hl hge
    subst hl
    have hf : s.A1.front = some a := hc1.1
    have hge' : s.A1.num ≥ s.A1thres := hge
    have hrun : find2q h s = Res.ok (h.val a, { s with A1 :=
        { num := s.A1.num - 1, front := h.next a,
          rear := if h.next a = none then none else s.A1.rear } }) := by
      by_cases hn : h.next a = none <;> simp [find2q, hge', hf, hn]
    exact ⟨_, hrun, hc1.2, by simp [vals], rfl, rfl, hc2⟩
  · intro a t hl hlt
    subst hl
    have hf : s.Am.front = some a := hc2.1
    have hlt' : ¬ (s.A1.num ≥ s.A1thres) := by omega
    have hrun : find2q h s = Res.ok (h.val a, { s with Am :=
        { s.Am with front := h.next a, num := s.Am.num - 1 } }) := by
      simp [find2q, hlt', hf]
    exact ⟨_, hrun, hc2.2, by simp [vals], rfl, rfl, hc1⟩

/-- Witness for C7: `A1 = [0, 1]` with `A1.num = 2 >= A1thres = 2`, `Am` empty. -/
theorem find2q_selection_witness :
    ∃ s', find2q (heapOf [⟨0, some 1⟩, ⟨1, none⟩])
          ⟨4, [10, 11, 12, 13], [], 0, ⟨2, some 0, some 1⟩, ⟨0, none, none⟩, 2⟩
        = Res.ok ((heapOf [⟨0, some 1⟩, ⟨1, none⟩]).val 0, s') ∧
      Chain (heapOf [⟨0, some 1⟩, ⟨1, none⟩]) s'.A1.front [1] ∧
      vals (heapOf [⟨0, some 1⟩, ⟨1, none⟩]) [1]
        = (vals (heapOf [⟨0, some 1⟩, ⟨1, none⟩]) [0, 1]).tail ∧
      s'.A1.num = (2 : Int) - 1 ∧ s'.Am = ⟨0, none, none⟩ ∧
      Chain (heapOf [⟨0, some 1⟩, ⟨1, none⟩]) s'.Am.front [] :=
  (find2q_selection (heapOf [⟨0, some 1⟩, ⟨1, none⟩])
    ⟨4, [10, 11, 12, 13], [], 0, ⟨2, some 0, some 1⟩, ⟨0, none, none⟩, 2⟩ [0, 1] []
    (by decide) (by decide)).1 0 [1] rfl (by decide)

/-! ## Two-queue policy: `miss2q` -/

theorem miss2qLoop_not_found (i : Int) (h : Heap) :
    ∀ (rest : List Nat) (fuel : Nat) (tmp : Nat) (del : Option Nat),
      Chain h del rest → i ∉ vals h rest → rest.length < fuel →
      miss2qLoop i fuel h tmp del = Res.ok (h, none, false) := by
  intro rest
  induction rest with
  | nil =>
    intro fuel tmp del hc _ hf
    have hd : del = none := hc
    subst hd
    obtain ⟨f, rfl⟩ : ∃ f, fuel = f + 1 := ⟨fuel - 1, by simp at hf; omega⟩
    rfl
  | cons d rest ih =>
    intro fuel tmp del hc hni hf
    have hd : del = some d := hc.1
    subst hd
    obtain ⟨f, rfl⟩ : ∃ f, fuel = f + 1 := ⟨fuel - 1, by simp at hf; omega⟩
    have hne : ¬ h.val d = i := by
      intro he
      apply hni
      simp [vals, he]
    have hni' : i ∉ vals h rest := by
      intro hm
      apply hni
      simp only [vals, List.map_cons, List.mem_cons]
      exact Or.inr hm
    simp only [miss2qLoop, hne, if_false]
    exact ih f d _ hc.2 hni' (by simp at hf; omega)

theorem miss2qLoop_found (i : Int) (h : Heap) :
    ∀ (rest : List Nat) (fuel : Nat) (tmp : Nat),
      Chain h (some tmp) (tmp :: rest) → i ∈ vals h rest → rest.length < fuel →
      ∃ d h', miss2qLoop i fuel h tmp (h.next tmp) = Res.ok (h', some d, true) ∧
        d ∈ rest ∧ h.val d = i ∧ Chain h' (some tmp) (tmp :: rest.erase d) ∧
        vals h (rest.erase d) = (vals h rest).erase i ∧
        (∀ a, h'.val a = h.val a) ∧
        (∀ a, a ≠ tmp → a ∉ rest → h'.next a = h.next a) := by
  intro rest
  induction rest with
  | nil =>
    intro fuel tmp _ hm _
    simp [vals] at hm
  | cons d rest ih =>
    intro fuel tmp hc hm hf
    obtain ⟨f, rfl⟩ : ∃ f, fuel = f + 1 := ⟨fuel - 1, by simp at hf; omega⟩
    have hnd : (tmp :: d :: rest).Nodup := Chain.nodup h _ _ hc
    have htd : tmp ≠ d := by
      intro he
      have := (List.nodup_cons.mp hnd).1
      apply this
      simp [he]
    have htr : tmp ∉ rest := by
      intro he
      have := (List.nodup_cons.mp hnd).1
      apply this
      exact List.mem_cons_of_mem d he
    have hdr : d ∉ rest := (List.nodup_cons.mp (List.nodup_cons.mp hnd).2).1
    have hnext : h.next tmp = some d := hc.2.1
    have hcd : Chain h (some d) (d :: rest) := ⟨rfl, hc.2.2⟩
    by_cases hv : h.val d = i
    · refine ⟨d, h.setNext tmp (h.next d), ?_, List.mem_cons_self d rest, hv, ?_, ?_, ?_, ?_⟩
      · simp only [hnext, miss2qLoop, hv, if_true]
      · have he : (d :: rest).erase d = rest := by simp
        rw [he]
        refine ⟨rfl, ?_⟩
        rw [Heap.next_setNext_same]
        exact Chain.setNext h tmp _ rest _ htr hc.2.2
      · have he : (d :: rest).erase d = rest := by simp
        rw [he]
        simp [vals, hv]
      · intro a
        exact Heap.val_setNext h tmp _ a
      · intro a hat _
        exact Heap.next_setNext_ne h tmp _ a hat
    · have hm' : i ∈ vals h rest := by
        simp only [vals, List.map_cons, List.mem_cons] at hm
        rcases hm with hm | hm
        · exact absurd hm.symm hv
        · exact hm
      obtain ⟨d', h', hrun, hmem, hval, hchain, hvals, hfv, hfn⟩ :=
        ih f d hcd hm' (by simp at hf; omega)
      have hdd : d' ≠ d := by
        rintro rfl
        exact hv hval
      have he : (d :: rest).erase d' = d :: rest.erase d' := by
        rw [List.erase_cons_tail]
        simpa using hdd.symm
      refine ⟨d', h', ?_, List.mem_cons_of_mem d hmem, hval, ?_, ?_, hfv, ?_⟩
      · simp only [hnext, miss2qLoop, hv, if_false]
        exact hrun
      · rw [he]
        refine ⟨rfl, ?_⟩
        rw [hfn tmp htd htr, hnext]
        exact hchain
      · rw [he]
        simp only [vals, List.map_cons] at hvals ⊢
        rw [hvals, List.erase_cons_tail]
        simpa using hv
      · intro a hat har
        have had : a ≠ d := by
          rintro rfl
          exact har (List.mem_cons_self _ _)
        have har' : a ∉ rest := fun hx => har (List.mem_cons_of_mem d hx)
        exact hfn a had har'

theorem miss2qA1_not_found (i : Int) (fuel : Nat) (h : Heap) (A1 : queue) (l1 : List Nat)
    (hc : Chain h A1.front l1) (hni : i ∉ vals h l1) (hf : l1.length ≤ fuel) :
    miss2qA1 i fuel h A1 = Res.ok (h, A1, none, false) := by
  cases l1 with
  | nil =>
    have hfr : A1.front = none := hc
    simp [miss2qA1, hfr]
  | cons a t =>
    have hfr : A1.front = some a := hc.1
    have hne : ¬ h.val a = i := by
      intro he
      apply hni
      simp [vals, he]
    have hni' : i ∉ vals h t := by
      intro hm
      apply hni
      simp only [vals, List.map_cons, List.mem_cons]
      exact Or.inr hm
    have hloop := miss2qLoop_not_found i h t fuel a (h.next a) hc.2 hni'
      (by simp at hf; omega)
    simp [miss2qA1, hfr, hne, hloop]

theorem miss2qA1_found (i : Int) (fuel : Nat) (h : Heap) (A1 : queue) (l1 : List Nat)
    (hc : Chain h A1.front l1) (hm : i ∈ vals h l1) (hf : l1.length ≤ fuel) :
    ∃ d h1 A1', miss2qA1 i fuel h A1 = Res.ok (h1, A1', some d, true) ∧
      d ∈ l1 ∧ h.val d = i ∧ Chain h1 A1'.front (l1.erase d) ∧
      vals h (l1.erase d) = (vals h l1).erase i ∧ A1'.num = A1.num - 1 ∧
      (∀ a, h1.val a = h.val a) ∧ (∀ a, a ∉ l1 → h1.next a = h.next a) := by
  cases l1 with
  | nil => simp [vals] at hm
  | cons a t =>
    have hfr : A1.front = some a := hc.1
    by_cases hv : h.val a = i
    · have he : (a :: t).erase a = t := by simp
      by_cases hn : h.next a = none
      · refine ⟨a, h, _, by simp only [miss2qA1, hfr, hv, if_true]; rfl, List.mem_cons_self a t,
          hv, ?_, ?_, ?_, fun _ => rfl, fun _ _ => rfl⟩
        · rw [he]; simpa [hn] using hc.2
        · rw [he]; simp [vals, hv]
        · simp [hn]
      · refine ⟨a, h, _, by simp only [miss2qA1, hfr, hv, if_true]; rfl, List.mem_cons_self a t,
          hv, ?_, ?_, ?_, fun _ => rfl, fun _ _ => rfl⟩
        · rw [he]; simpa [hn] using hc.2
        · rw [he]; simp [vals, hv]
        · simp [hn]
    · have hm' : i ∈ vals h t := by
        simp only [vals, List.map_cons, List.mem_cons] at hm
        rcases hm with hm | hm
        · exact absurd hm.symm hv
        · exact hm
      obtain ⟨d, h', hrun, hmem, hval, hchain, hvals, hfv, hfn⟩ :=
        miss2qLoop_found i h t fuel a ⟨rfl, hc.2⟩ hm' (by simp at hf; omega)
      have hda : d ≠ a := by
        rintro rfl
        exact hv hval
      have he : (a :: t).erase d = a :: t.erase d := by
        rw [List.erase_cons_tail]
        simpa using hda.symm
      refine ⟨d, h', { A1 with num := A1.num - 1 }, ?_, List.mem_cons_of_mem a hmem,
        hval, ?_, ?_, rfl, hfv, ?_⟩
      · simp [miss2qA1, hfr, hv, hrun]
      · rw [he]
        exact ⟨hfr, hchain.2⟩
      · rw [he]
        simp only [vals, List.map_cons] at hvals ⊢
        rw [hvals, List.erase_cons_tail]
        simpa using hv
      · intro x hx
        exact hfn x (fun hxa => hx (by simp [hxa]))
          (fun hxt => hx (List.mem_cons_of_mem a hxt))

theorem miss2qAm_not_found (i : Int) (fuel : Nat) (h : Heap) (Am : queue) (l2 : List Nat)
    (del : Option Nat)
    (hc : Chain h Am.front l2) (hni : i ∉ vals h l2) (hf : l2.length ≤ fuel) :
    ∃ del', miss2qAm i fuel h Am del false = Res.ok (h, Am, del', false) := by
  cases l2 with
  | nil =>
    have hfr : Am.front = none := hc
    exact ⟨del, by simp [miss2qAm, hfr]⟩
  | cons a t =>
    have hfr : Am.front = some a := hc.1
    have hne : ¬ h.val a = i := by
      intro he
      apply hni
      simp [vals, he]
    have hni' : i ∉ vals h t := by
      intro hm
      apply hni
      simp only [vals, List.map_cons, List.mem_cons]
      exact Or.inr hm
    have hloop := miss2qLoop_not_found i h t fuel a (h.next a) hc.2 hni'
      (by simp at hf; omega)
    exact ⟨none, by simp [miss2qAm, hfr, hne, hloop]⟩

theorem miss2qAm_found (i : Int) (fuel : Nat) (h : Heap) (Am : queue) (l2 : List Nat)
    (del : Option Nat)
    (hc : Chain h Am.front l2) (hm : i ∈ vals h l2) (hf : l2.length ≤ fuel) :
    ∃ d h1 Am', miss2qAm i fuel h Am del false = Res.ok (h1, Am', some d, true) ∧
      d ∈ l2 ∧ h.val d = i ∧ Chain h1 Am'.front (l2.erase d) ∧
      vals h (l2.erase d) = (vals h l2).erase i ∧ Am'.num = Am.num - 1 ∧
      (∀ a, h1.val a = h.val a) ∧ (∀ a, a ∉ l2 → h1.next a = h.next a) := by
  cases l2 with
  | nil => simp [vals] at hm
  | cons a t =>
    have hfr : Am.front = some a := hc.1
    by_cases hv : h.val a = i
    · have he : (a :: t).erase a = t := by simp
      refine ⟨a, h, _, by simp only [miss2qAm, hfr, hv, if_true]; rfl, List.mem_cons_self a t,
        hv, ?_, ?_, ?_, fun _ => rfl, fun _ _ => rfl⟩
      · rw [he]; exact hc.2
      · rw [he]; simp [vals, hv]
      · rfl
    · have hm' : i ∈ vals h t := by
        simp only [vals, List.map_cons, List.mem_cons] at hm
        rcases hm with hm | hm
        · exact absurd hm.symm hv
        · exact hm
      obtain ⟨d, h', hrun, hmem, hval, hchain, hvals, hfv, hfn⟩ :=
        miss2qLoop_found i h t fuel a ⟨rfl, hc.2⟩ hm' (by simp at hf; omega)
      have hda : d ≠ a := by
        rintro rfl
        exact hv hval
      have he : (a :: t).erase d = a :: t.erase d := by
        rw [List.erase_cons_tail]
        simpa using hda.symm
      refine ⟨d, h', { Am with num := Am.num - 1 }, ?_, List.mem_cons_of_mem a hmem,
        hval, ?_, ?_, rfl, hfv, ?_⟩
      · simp [miss2qAm, hfr, hv, hrun]
      · rw [he]
        exact ⟨hfr, hchain.2⟩
      · rw [he]
        simp only [vals, List.map_cons] at hvals ⊢
        rw [hvals, List.erase_cons_tail]
        simpa using hv
      · intro x hx
        exact hfn x (fun hxa => hx (by simp [hxa]))
          (fun hxt => hx (List.mem_cons_of_mem a hxt))

theorem miss2qReinsert_spec (A1thres : Int) (h : Heap) (A1 Am : queue) (d : Nat)
    (c1 c2 : List Nat) (hc1 : Chain h A1.front c1) (hc2 : Chain h Am.front c2)
    (hd1 : d ∉ c1) (hd2 : d ∉ c2) :
    ∃ h3 A1' Am', miss2qReinsert A1thres h A1 Am (some d) true = Res.ok (h3, A1', Am') ∧
      (∀ a, h3.val a = h.val a) ∧
      (A1thres ≤ A1.num → Chain h3 A1'.front (d :: c1) ∧ Chain h3 Am'.front c2 ∧
        A1'.num = A1.num + 1 ∧ Am'.num = Am.num) ∧
      (A1.num < A1thres → Chain h3 A1'.front c1 ∧ Chain h3 Am'.front (d :: c2) ∧
        A1'.num = A1.num ∧ Am'.num = Am.num + 1) := by
  by_cases hge : A1.num ≥ A1thres
  · refine ⟨_, _, _, by simp only [miss2qReinsert, hge, if_true]; rfl, ?_, ?_, ?_⟩
    · intro a; exact Heap.val_setNext h d _ a
    · intro _
      refine ⟨⟨rfl, ?_⟩, Chain.setNext h d _ c2 _ hd2 hc2, rfl, rfl⟩
      rw [Heap.next_setNext_same]
      exact Chain.setNext h d _ c1 _ hd1 hc1
    · intro hlt; omega
  · refine ⟨_, _, _, by simp only [miss2qReinsert, hge, if_true, if_false]; rfl, ?_, ?_, ?_⟩
    · intro a; exact Heap.val_setNext h d _ a
    · intro hle; omega
    · intro _
      refine ⟨Chain.setNext h d _ c1 _ hd1 hc1, ⟨rfl, ?_⟩, rfl, rfl⟩
      rw [Heap.next_setNext_same]
      exact Chain.setNext h d _ c2 _ hd2 hc2

theorem vals_congr (h h' : Heap) (l : List Nat) (hv : ∀ a, h'.val a = h.val a) :
    vals h' l = vals h l := by
  unfold vals
  exact List.map_congr_left (fun a _ => hv a)

theorem vals_length (h : Heap) (l : List Nat) : (vals h l).length = l.length := by
  simp [vals]

/-- C8: in a state whose two `next`-chains end in `NULL` and share no node
(`l1` the nodes of `A1`, `l2` those of `Am`), with no way index twice and the
counts equal to the chain lengths, `miss2q` on the block of a way `w` that is
in `A1` or `Am` returns (given recursion bound at least the number of nodes)
and leaves both chains `NULL`-terminated with counts equal to their lengths:
with `r1`, `r2` the old contents of `A1`, `Am` with `w` removed and `c` the
length of `r1` (`A1.num` after the removal), if `c >= A1thres` then `A1` reads
`w` followed by `r1` and `Am` reads `r2`, otherwise `A1` reads `r1` and `Am`
reads `w` followed by `r2`.  When `w` is in neither queue, store and set are
unchanged. -/
theorem miss2q_spec (fuel : Nat) (h : Heap) (s : CacheSet) (l1 l2 : List Nat)
    (w : Nat) (blk : BlkPtr)
    (hlen : s.blks.length = s.assoc) (hnodup : s.blks.Nodup) (hblk : s.blks[w]? = some blk)
    (hc1 : Chain h s.A1.front l1) (hc2 : Chain h s.Am.front l2)
    (hdisj : ∀ a ∈ l1, a ∉ l2) (hvals : (vals h (l1 ++ l2)).Nodup)
    (hn1 : s.A1.num = l1.length) (hn2 : s.Am.num = l2.length)
    (hfuel : l1.length + l2.length ≤ fuel) :
    (((w : Int) ∈ vals h l1 ∨ (w : Int) ∈ vals h l2) →
      ∃ h' s' l1' l2', miss2q fuel blk h s = Res.ok (h', s') ∧
        Chain h' s'.A1.front l1' ∧ Chain h' s'.Am.front l2' ∧
        s'.A1.num = l1'.length ∧ s'.Am.num = l2'.length ∧
        (s.A1thres ≤ ((vals h l1).erase (w : Int)).length →
          vals h' l1' = (w : Int) :: (vals h l1).erase (w : Int) ∧
          vals h' l2' = (vals h l2).erase (w : Int)) ∧
        (((vals h l1).erase (w : Int)).length < s.A1thres →
          vals h' l1' = (vals h l1).erase (w : Int) ∧
          vals h' l2' = (w : Int) :: (vals h l2).erase (w : Int)) ∧
        s' = { s with A1 := s'.A1, Am := s'.Am })
    ∧ ((w : Int) ∉ vals h l1 → (w : Int) ∉ vals h l2 →
        miss2q fuel blk h s = Res.ok (h, s)) := by
  have hwlt : w < s.blks.length := (List.getElem?_eq_some_iff.mp hblk).1
  have hfw : findWay s.blks blk s.assoc = Res.ok (w : Int) :=
    findWay_of_getElem s.blks blk hnodup w hblk s.assoc (by omega) (by omega)
  have hw1 : ¬ ((w : Int) = -1) := by omega
  have hvsplit : (vals h l1 ++ vals h l2).Nodup := by
    simpa [vals] using hvals
  have hvdisj : ∀ x ∈ vals h l1, x ∉ vals h l2 := fun x hx1 hx2 =>
    (List.nodup_append.mp hvsplit).2.2 hx1 hx2
  have hnd1 : l1.Nodup := Chain.nodup h l1 _ hc1
  have hnd2 : l2.Nodup := Chain.nodup h l2 _ hc2
  constructor
  · intro hpres
    by_cases hm1 : (w : Int) ∈ vals h l1
    · -- the way is found in A1
      have hm2 : (w : Int) ∉ vals h l2 := hvdisj _ hm1
      obtain ⟨d, h1, A1', hA1, hd1, hdv, hch1, hv1, hnum1, hfv1, hfn1⟩ :=
        miss2qA1_found (w : Int) fuel h s.A1 l1 hc1 hm1 (by omega)
      have hAm : miss2qAm (w : Int) fuel h1 s.Am (some d) true
          = Res.ok (h1, s.Am, some d, true) := by simp [miss2qAm]
      have hch2 : Chain h1 s.Am.front l2 :=
        Chain.congr h h1 l2 _ (fun a ha => hfn1 a (fun ha1 => hdisj a ha1 ha)) hc2
      obtain ⟨h3, A1r, Amr, hRe, hfv3, hge, hlt⟩ :=
        miss2qReinsert_spec s.A1thres h1 A1' s.Am d (l1.erase d) l2 hch1 hch2
          (List.Nodup.not_mem_erase hnd1) (hdisj d hd1)
      have hv3 : ∀ a, h3.val a = h.val a := fun a => (hfv3 a).trans (hfv1 a)
      have hlen1 : ((vals h l1).erase (w : Int)).length = (l1.erase d).length := by
        rw [← hv1, vals_length]
      have hlenE : ((l1.erase d).length : Int) = (l1.length : Int) - 1 := by
        rw [List.length_erase_of_mem hd1]
        have := List.length_pos_of_mem hd1
        omega
      have hr2 : (vals h l2).erase (w : Int) = vals h l2 := List.erase_of_not_mem hm2
      have hrun : miss2q fuel blk h s = Res.ok (h3, { s with A1 := A1r, Am := Amr }) := by
        simp [miss2q, hfw, hw1, hA1, hAm, hRe]
      by_cases hcmp : s.A1thres ≤ A1'.num
      · obtain ⟨hcA, hcB, hnA, hnB⟩ := hge hcmp
        refine ⟨h3, _, d :: l1.erase d, l2, hrun, hcA, hcB, ?_, ?_, ?_, ?_, rfl⟩
        · simp only [hnA, hnum1, hn1, List.length_cons]; push_cast; omega
        · simp only [hnB, hn2]
        · intro _
          refine ⟨?_, ?_⟩
          · rw [vals_congr h h3 _ hv3]
            simp only [vals, List.map_cons] at hv1 ⊢
            rw [hdv, hv1]
          · rw [vals_congr h h3 _ hv3, hr2]
        · intro hc
          rw [hlen1] at hc
          omega
      · obtain ⟨hcA, hcB, hnA, hnB⟩ := hlt (by omega)
        refine ⟨h3, _, l1.erase d, d :: l2, hrun, hcA, hcB, ?_, ?_, ?_, ?_, rfl⟩
        · simp only [hnA, hnum1, hn1]; omega
        · simp only [hnB, hn2, List.length_cons]; push_cast; omega
        · intro hc
          rw [hlen1] at hc
          omega
        · intro _
          refine ⟨?_, ?_⟩
          · rw [vals_congr h h3 _ hv3, hv1]
          · rw [vals_congr h h3 _ hv3, hr2]
            simp only [vals, List.map_cons]
            rw [hdv]
    · -- the way is found in Am
      have hm2 : (w : Int) ∈ vals h l2 := by
        rcases hpres with hp | hp
        · exact absurd hp hm1
        · exact hp
      have hA1 := miss2qA1_not_found (w : Int) fuel h s.A1 l1 hc1 hm1 (by omega)
      obtain ⟨d, h1, Am', hAm, hd2, hdv, hch2, hv2, hnum2, hfv1, hfn1⟩ :=
        miss2qAm_found (w : Int) fuel h s.Am l2 none hc2 hm2 (by omega)
      have hch1 : Chain h1 s.A1.front l1 :=
        Chain.congr h h1 l1 _ (fun a ha => hfn1 a (fun ha2 => hdisj a ha ha2)) hc1
      obtain ⟨h3, A1r, Amr, hRe, hfv3, hge, hlt⟩ :=
        miss2qReinsert_spec s.A1thres h1 s.A1 Am' d l1 (l2.erase d) hch1 hch2
          (fun hx => hdisj d hx hd2) (List.Nodup.not_mem_erase hnd2)
      have hv3 : ∀ a, h3.val a = h.val a := fun a => (hfv3 a).trans (hfv1 a)
      have hr1 : (vals h l1).erase (w : Int) = vals h l1 := List.erase_of_not_mem hm1
      have hlenE : ((l2.erase d).length : Int) = (l2.length : Int) - 1 := by
        rw [List.length_erase_of_mem hd2]
        have := List.length_pos_of_mem hd2
        omega
      have hrun : miss2q fuel blk h s = Res.ok (h3, { s with A1 := A1r, Am := Amr }) := by
        simp [miss2q, hfw, hw1, hA1, hAm, hRe]
      by_cases hcmp : s.A1thres ≤ s.A1.num
      · obtain ⟨hcA, hcB, hnA, hnB⟩ := hge hcmp
        refine ⟨h3, _, d :: l1, l2.erase d, hrun, hcA, hcB, ?_, ?_, ?_, ?_, rfl⟩
        · simp only [hnA, hn1, List.length_cons]; push_cast; omega
        · simp only [hnB, hnum2, hn2]; omega
        · intro _
          refine ⟨?_, ?_⟩
          · rw [vals_congr h h3 _ hv3, hr1]
            simp only [vals, List.map_cons]
            rw [hdv]
          · rw [vals_congr h h3 _ hv3, hv2]
        · intro hc
          rw [hr1, vals_length] at hc
          omega
      · obtain ⟨hcA, hcB, hnA, hnB⟩ := hlt (by omega)
        refine ⟨h3, _, l1, d :: l2.erase d, hrun, hcA, hcB, ?_, ?_, ?_, ?_, rfl⟩
        · simp only [hnA, hn1]
        · simp only [hnB, hnum2, hn2, List.length_cons]; push_cast; omega
        · intro hc
          rw [hr1, vals_length] at hc
          omega
        · intro _
          refine ⟨?_, ?_⟩
          · rw [vals_congr h h3 _ hv3, hr1]
          · rw [vals_congr h h3 _ hv3]
            simp only [vals, List.map_cons] at hv2 ⊢
            rw [hdv, hv2]
  · intro hm1 hm2
    have hA1 := miss2qA1_not_found (w : Int) fuel h s.A1 l1 hc1 hm1 (by omega)
    obtain ⟨del', hAm⟩ := miss2qAm_not_found (w : Int) fuel h s.Am l2 none hc2 hm2 (by omega)
    simp [miss2q, hfw, hw1, hA1, hAm, miss2qReinsert]

/-- Witness for C8: `A1 = [0, 1]`, `Am = [2]`, `A1thres = 1`, and `miss2q` on
the block of way 1. -/
theorem miss2q_spec_witness :
    ∃ h' s' l1' l2',
      miss2q 3 11 (heapOf [⟨0, some 1⟩, ⟨1, none⟩, ⟨2, none⟩])
          ⟨4, [10, 11, 12, 13], [], 0, ⟨2, some 0, some 1⟩, ⟨1, some 2, some 2⟩, 1⟩
        = Res.ok (h', s') ∧
      Chain h' s'.A1.front l1' ∧ Chain h' s'.Am.front l2' ∧
      s'.A1.num = l1'.length ∧ s'.Am.num = l2'.length ∧
      vals h' l1' = [1, 0] ∧ vals h' l2' = [2] :=
  match (miss2q_spec 3 (heapOf [⟨0, some 1⟩, ⟨1, none⟩, ⟨2, none⟩])
      ⟨4, [10, 11, 12, 13], [], 0, ⟨2, some 0, some 1⟩, ⟨1, some 2, some 2⟩, 1⟩
      [0, 1] [2] 1 11 (by decide) (by decide) (by decide) (by decide) (by decide)
      (by decide) (by decide) (by decide) (by decide) (by decide)).1
      (Or.inl (by decide)) with
  | ⟨h', s', l1', l2', hrun, hc1, hc2, hn1, hn2, hge, _, _⟩ =>
    ⟨h', s', l1', l2', hrun, hc1, hc2, hn1, hn2, hge (by decide)⟩

/-! ## Pseudo-LRU tree -/

theorem tdiv_natCast (a b : Nat) : Int.tdiv (a : Int) (b : Int) = ((a / b : Nat) : Int) := by
  rw [Int.tdiv_eq_ediv (Int.ofNat_nonneg a) (Int.ofNat_nonneg b)]
  exact (Int.natCast_div a b).symm

theorem writeAt_natCast (M : List Int) (L : Nat) (v : Int) (hL : L < M.length) :
    writeAt M (L : Int) v = some (M.set L v) := by
  have h0 : (0 : Int) ≤ (L : Int) := Int.ofNat_nonneg L
  simp [writeAt, hL]

theorem inInt_natCast (n : Nat) : inInt (n : Int) ↔ n ≤ 2147483647 := by
  unfold inInt INT_MIN INT_MAX
  omega

theorem setTREELoop_step (up : Bool) (A fuel : Nat) (M : List Int) (I X L li : Nat)
    (hX : 0 < X) (hL : L < M.length) (hli : li % 2 = 0) (hLli : L + 2 ≤ li)
    (hI : I < 2 * X) (hImax : I ≤ 2147483647) :
    setTREELoop up (A : Int) (fuel + 1) M (I : Int) (X : Int) (L : Int) (li : Int)
      = if ¬ (2 * L + 1 + I / X ≤ 2147483647 ∧ li * 2 ≤ 2147483647) then Res.fault
        else if li * 2 ≤ A then
          setTREELoop up (A : Int) fuel (M.set L (storedBit up (I / X)))
            ((I % X : Nat) : Int) ((X / 2 : Nat) : Int) ((2 * L + 1 + I / X : Nat) : Int)
            ((li * 2 : Nat) : Int)
        else Res.ok (M.set L (storedBit up (I / X))) := by
  have hX0 : ¬ ((X : Int) = 0) := by omega
  have hq : Int.tdiv (I : Int) (X : Int) = ((I / X : Nat) : Int) := tdiv_natCast I X
  have hl2 : Int.tdiv (li : Int) 2 = ((li / 2 : Nat) : Int) := by
    have := tdiv_natCast li 2
    simpa using this
  have hx2 : Int.tdiv (X : Int) 2 = ((X / 2 : Nat) : Int) := by
    have := tdiv_natCast X 2
    simpa using this
  have hw : writeAt M (L : Int) (if up then 1 - ((I / X : Nat) : Int) else ((I / X : Nat) : Int))
      = some (M.set L (storedBit up (I / X))) := by
    rw [writeAt_natCast M L _ hL]
    rfl
  have hmod : (I : Int) - ((I / X : Nat) : Int) * (X : Int) = ((I % X : Nat) : Int) := by
    have h1 : X * (I / X) + I % X = I := Nat.div_add_mod I X
    have h2 : (X : Int) * ((I / X : Nat) : Int) + ((I % X : Nat) : Int) = (I : Int) := by
      exact_mod_cast h1
    linarith
  have hlast : 2 * ((L : Int) - ((li / 2 : Nat) : Int) + 1) + ((I / X : Nat) : Int) + (li : Int) - 1
      = ((2 * L + 1 + I / X : Nat) : Int) := by
    have h1 : 2 * (li / 2) = li := by omega
    push_cast
    have h2 : (2 : Int) * ((li / 2 : Nat) : Int) = (li : Int) := by exact_mod_cast h1
    push_cast at h2
    linarith
  have hli2 : (li : Int) * 2 = ((li * 2 : Nat) : Int) := by push_cast; ring
  have hcond : ((li * 2 : Nat) : Int) ≤ (A : Int) ↔ li * 2 ≤ A := by
    exact Int.ofNat_le
  have hq1 : I / X ≤ 1 := by
    have : I / X < 2 := (Nat.div_lt_iff_lt_mul hX).mpr hI
    omega
  have hqX : I / X * X ≤ I := Nat.div_mul_le_self I X
  have hqXi : ((I / X : Nat) : Int) * (X : Int) ≤ (I : Int) := by exact_mod_cast hqX
  have hqX0 : (0 : Int) ≤ ((I / X : Nat) : Int) * (X : Int) :=
    mul_nonneg (Int.ofNat_nonneg _) (Int.ofNat_nonneg _)
  have hv : inInt (if up then 1 - ((I / X : Nat) : Int) else ((I / X : Nat) : Int)) := by
    unfold inInt INT_MIN INT_MAX
    generalize I / X = q at hq1 ⊢
    cases up <;> simp <;> omega
  have hall : allInInt [((I / X : Nat) : Int),
        (if up then 1 - ((I / X : Nat) : Int) else ((I / X : Nat) : Int)),
        (L : Int) - ((li / 2 : Nat) : Int),
        (L : Int) - ((li / 2 : Nat) : Int) + 1,
        2 * ((L : Int) - ((li / 2 : Nat) : Int) + 1),
        2 * ((L : Int) - ((li / 2 : Nat) : Int) + 1) + ((I / X : Nat) : Int),
        2 * ((L : Int) - ((li / 2 : Nat) : Int) + 1) + ((I / X : Nat) : Int) + (li : Int),
        ((2 * L + 1 + I / X : Nat) : Int),
        ((li * 2 : Nat) : Int),
        ((I / X : Nat) : Int) * (X : Int),
        ((I % X : Nat) : Int)]
      ↔ (2 * L + 1 + I / X ≤ 2147483647 ∧ li * 2 ≤ 2147483647) := by
    have hmodle : I % X ≤ I := Nat.mod_le I X
    generalize I / X = q at hq1 hqXi hqX0 hv ⊢
    generalize I % X = r at hmodle ⊢
    unfold allInInt
    simp only [List.forall_mem_cons, List.not_mem_nil, false_implies, implies_true, and_true]
    constructor
    · intro h
      have h8 := h.2.2.2.2.2.2.2.1
      have h9 := h.2.2.2.2.2.2.2.2.1
      rw [inInt_natCast] at h8 h9
      exact ⟨h8, h9⟩
    · intro h
      unfold inInt INT_MIN INT_MAX at hv ⊢
      refine ⟨by omega, hv, by omega, by omega, by omega, by omega, by omega, by omega,
        by omega, by omega, by omega⟩
  simp only [setTREELoop, hX0, if_false, hq, hw, hl2, hx2, hmod, hlast, hli2, hcond, hall]

theorem half_le_one (k w d : Nat) : half k w d ≤ 1 := by
  unfold half
  omega

theorem half_eq_div (k w d m : Nat) (h : d + m + 1 = k) :
    (w % 2 ^ (m + 1)) / 2 ^ m = half k w d := by
  have hm : k - 1 - d = m := by omega
  unfold half
  rw [hm, Nat.mod_pow_succ]
  have hpos : 0 < 2 ^ m := Nat.two_pow_pos _
  rw [Nat.add_mul_div_left _ _ hpos, Nat.div_eq_of_lt (Nat.mod_lt _ hpos)]
  simp

theorem mod_pow_succ_mod (w m : Nat) : (w % 2 ^ (m + 1)) % 2 ^ m = w % 2 ^ m :=
  Nat.mod_mod_of_dvd w (Dvd.intro (2 ^ 1) (by rw [← pow_add]))

theorem pathNode_bounds (k w : Nat) :
    ∀ d, 2 ^ d ≤ pathNode k w d + 1 ∧ pathNode k w d + 2 ≤ 2 ^ (d + 1) := by
  intro d
  induction d with
  | zero => simp [pathNode]
  | succ d ih =>
    have hh := half_le_one k w d
    have h1 : 2 ^ (d + 1) = 2 * 2 ^ d := by rw [pow_succ]; ring
    have h2 : 2 ^ (d + 1 + 1) = 2 * 2 ^ (d + 1) := by rw [pow_succ]; ring
    simp only [pathNode]
    omega

theorem pathNode_lt (k w : Nat) (d d' : Nat) (h : d < d') :
    pathNode k w d < pathNode k w d' := by
  have h1 := (pathNode_bounds k w d).2
  have h2 := (pathNode_bounds k w d').1
  have h3 : 2 ^ (d + 1) ≤ 2 ^ d' := Nat.pow_le_pow_right (by decide) h
  omega

theorem two_pow_le_int (n : Nat) (h : n ≤ 30) : 2 ^ n ≤ 2147483647 := by
  have h1 : 2 ^ n ≤ 2 ^ 30 := Nat.pow_le_pow_right (by decide) h
  have h2 : 2 ^ 30 = 1073741824 := by norm_num
  omega

theorem setTREELoop_walk (up : Bool) (k w : Nat) (hk30 : k ≤ 29) :
    ∀ (m d fuel : Nat) (M : List Int), d + m + 1 = k → m + 1 ≤ fuel →
      2 ^ k ≤ M.length + 1 →
      ∃ M', setTREELoop up ((2 ^ k : Nat) : Int) fuel M ((w % 2 ^ (m + 1) : Nat) : Int)
            ((2 ^ m : Nat) : Int) ((pathNode k w d : Nat) : Int) ((2 ^ (d + 1) : Nat) : Int)
          = Res.ok M' ∧
        M'.length = M.length ∧
        (∀ d', d ≤ d' → d' < k →
          M'[pathNode k w d']? = some (storedBit up (half k w d'))) ∧
        (∀ j : Nat, (∀ d', d ≤ d' → d' < k → j ≠ pathNode k w d') → M'[j]? = M[j]?) := by
  intro m
  induction m with
  | zero =>
    intro d fuel M hk hfuel hM
    obtain ⟨f, rfl⟩ : ∃ f, fuel = f + 1 := ⟨fuel - 1, by omega⟩
    have hb := (pathNode_bounds k w d).2
    have hIlt : w % 2 ^ (0 + 1) < 2 * 2 ^ (0) := by
      have h1 := Nat.mod_lt w (Nat.two_pow_pos (0 + 1))
      have h2 : 2 ^ (0 + 1) = 2 * 2 ^ (0) := by rw [pow_succ]; ring
      omega
    have hImax : w % 2 ^ (0 + 1) ≤ 2147483647 := by
      have h1 := Nat.mod_lt w (Nat.two_pow_pos (0 + 1))
      have h2 := two_pow_le_int (0 + 1) (by omega)
      omega
    have hkd : k = d + 1 := by omega
    have hL : pathNode k w d < M.length := by
      rw [hkd] at hM
      omega
    have hstep := setTREELoop_step up (2 ^ k) f M (w % 2 ^ (0 + 1)) (2 ^ 0) (pathNode k w d)
      (2 ^ (d + 1)) (by simp) hL (by rw [pow_succ]; omega) hb hIlt hImax
    have hq : w % 2 ^ (0 + 1) / 2 ^ 0 = half k w d := half_eq_div k w d 0 (by omega)
    have hfit : 2 * pathNode k w d + 1 + half k w d ≤ 2147483647 ∧
        2 ^ (d + 1) * 2 ≤ 2147483647 := by
      have h1 := two_pow_le_int (d + 2) (by omega)
      have h2 : 2 ^ (d + 2) = 2 ^ (d + 1) * 2 := pow_succ 2 (d + 1)
      have h3 := half_le_one k w d
      omega
    have hcond : ¬ (2 ^ (d + 1) * 2 ≤ 2 ^ k) := by
      rw [hkd]
      have : 0 < 2 ^ (d + 1) := Nat.two_pow_pos _
      omega
    rw [hq, if_neg (not_not.mpr hfit), if_neg hcond] at hstep
    refine ⟨_, hstep, by simp, ?_, ?_⟩
    · intro d' h1 h2
      have : d' = d := by omega
      subst this
      simp [List.getElem?_set, hL]
    · intro j hj
      have hne : pathNode k w d ≠ j := fun he => hj d (le_refl d) (by omega) he.symm
      simp [List.getElem?_set, hne]
  | succ m ih =>
    intro d fuel M hk hfuel hM
    obtain ⟨f, rfl⟩ : ∃ f, fuel = f + 1 := ⟨fuel - 1, by omega⟩
    have hb := (pathNode_bounds k w d).2
    have hIlt : w % 2 ^ (m + 1 + 1) < 2 * 2 ^ (m + 1) := by
      have h1 := Nat.mod_lt w (Nat.two_pow_pos (m + 1 + 1))
      have h2 : 2 ^ (m + 1 + 1) = 2 * 2 ^ (m + 1) := by rw [pow_succ]; ring
      omega
    have hImax : w % 2 ^ (m + 1 + 1) ≤ 2147483647 := by
      have h1 := Nat.mod_lt w (Nat.two_pow_pos (m + 1 + 1))
      have h2 := two_pow_le_int (m + 1 + 1) (by omega)
      omega
    have hpow : 2 ^ (d + 1) * 2 ≤ 2 ^ k := by
      have : 2 ^ (d + 1) * 2 = 2 ^ (d + 2) := (pow_succ 2 (d + 1)).symm
      rw [this]
      exact Nat.pow_le_pow_right (by decide) (by omega)
    have hL : pathNode k w d < M.length := by omega
    have hstep := setTREELoop_step up (2 ^ k) f M (w % 2 ^ (m + 1 + 1)) (2 ^ (m + 1))
      (pathNode k w d) (2 ^ (d + 1)) (Nat.two_pow_pos _) hL (by rw [pow_succ]; omega) hb hIlt hImax
    have hq : w % 2 ^ (m + 1 + 1) / 2 ^ (m + 1) = half k w d := half_eq_div k w d (m + 1) hk
    have hfit : 2 * pathNode k w d + 1 + half k w d ≤ 2147483647 ∧
        2 ^ (d + 1) * 2 ≤ 2147483647 := by
      have h1 := two_pow_le_int (d + 2) (by omega)
      have h2 : 2 ^ (d + 2) = 2 ^ (d + 1) * 2 := pow_succ 2 (d + 1)
      have h3 := half_le_one k w d
      omega
    rw [hq, if_neg (not_not.mpr hfit), if_pos hpow] at hstep
    have hi : w % 2 ^ (m + 1 + 1) % 2 ^ (m + 1) = w % 2 ^ (m + 1) := mod_pow_succ_mod w (m + 1)
    have hx : 2 ^ (m + 1) / 2 = 2 ^ m := by rw [pow_succ]; simp
    have hl : 2 * pathNode k w d + 1 + half k w d = pathNode k w (d + 1) := rfl
    have hli : 2 ^ (d + 1) * 2 = 2 ^ (d + 1 + 1) := by rw [pow_succ 2 (d + 1)]
    rw [hi, hx, hl, hli] at hstep
    obtain ⟨M', hrun, hlen, hwr, hfr⟩ :=
      ih (d + 1) f (M.set (pathNode k w d) (storedBit up (half k w d))) (by omega) (by omega)
        (by simpa using hM)
    refine ⟨M', hstep.trans hrun, by simpa using hlen, ?_, ?_⟩
    · intro d' h1 h2
      rcases Nat.eq_or_lt_of_le h1 with he | hlt
      · subst he
        have hframe := hfr (pathNode k w d) (fun e h3 _ => by
          have := pathNode_lt k w d e (by omega)
          omega)
        rw [hframe]
        simp [List.getElem?_set, hL]
      · exact hwr d' (by omega) h2
    · intro j hj
      have hne : pathNode k w d ≠ j := fun he => hj d (le_refl d) (by omega) he.symm
      rw [hfr j (fun d' h1 h2 => hj d' (by omega) h2)]
      simp [List.getElem?_set, hne]

theorem setTREELoop_overflow (up : Bool) (w : Nat) :
    ∀ (m d fuel : Nat) (M : List Int), d + m + 1 = 30 → m + 1 ≤ fuel →
      2 ^ 30 ≤ M.length + 1 →
      setTREELoop up ((2 ^ 30 : Nat) : Int) fuel M ((w % 2 ^ (m + 1) : Nat) : Int)
          ((2 ^ m : Nat) : Int) ((pathNode 30 w d : Nat) : Int) ((2 ^ (d + 1) : Nat) : Int)
        = Res.fault := by
  intro m
  induction m with
  | zero =>
    intro d fuel M hk hfuel hM
    obtain ⟨f, rfl⟩ : ∃ f, fuel = f + 1 := ⟨fuel - 1, by omega⟩
    have hb := (pathNode_bounds 30 w d).2
    have hIlt : w % 2 ^ (0 + 1) < 2 * 2 ^ (0) := by
      have h1 := Nat.mod_lt w (Nat.two_pow_pos (0 + 1))
      have h2 : 2 ^ (0 + 1) = 2 * 2 ^ (0) := by rw [pow_succ]; ring
      omega
    have hImax : w % 2 ^ (0 + 1) ≤ 2147483647 := by
      have h1 := Nat.mod_lt w (Nat.two_pow_pos (0 + 1))
      have h2 := two_pow_le_int (0 + 1) (by omega)
      omega
    have hd : d = 29 := by omega
    subst hd
    have hL : pathNode 30 w 29 < M.length := by omega
    have hstep := setTREELoop_step up (2 ^ 30) f M (w % 2 ^ (0 + 1)) (2 ^ 0) (pathNode 30 w 29)
      (2 ^ (29 + 1)) (by simp) hL (by norm_num) hb hIlt hImax
    have hover : ¬ (2 * pathNode 30 w 29 + 1 + w % 2 ^ (0 + 1) / 2 ^ 0 ≤ 2147483647 ∧
        2 ^ (29 + 1) * 2 ≤ 2147483647) := by
      intro h
      have := h.2
      norm_num at this
    rw [if_pos hover] at hstep
    exact hstep
  | succ m ih =>
    intro d fuel M hk hfuel hM
    obtain ⟨f, rfl⟩ : ∃ f, fuel = f + 1 := ⟨fuel - 1, by omega⟩
    have hb := (pathNode_bounds 30 w d).2
    have hIlt : w % 2 ^ (m + 1 + 1) < 2 * 2 ^ (m + 1) := by
      have h1 := Nat.mod_lt w (Nat.two_pow_pos (m + 1 + 1))
      have h2 : 2 ^ (m + 1 + 1) = 2 * 2 ^ (m + 1) := by rw [pow_succ]; ring
      omega
    have hImax : w % 2 ^ (m + 1 + 1) ≤ 2147483647 := by
      have h1 := Nat.mod_lt w (Nat.two_pow_pos (m + 1 + 1))
      have h2 := two_pow_le_int (m + 1 + 1) (by omega)
      omega
    have h2d : 2 ^ (d + 2) = 2 ^ (d + 1) * 2 := pow_succ 2 (d + 1)
    have hpow : 2 ^ (d + 1) * 2 ≤ 2 ^ 30 := by
      rw [← h2d]
      exact Nat.pow_le_pow_right (by decide) (by omega)
    have hle : 2 ^ (d + 1) ≤ 2 ^ 30 := Nat.pow_le_pow_right (by decide) (by omega)
    have hL : pathNode 30 w d < M.length := by omega
    have hstep := setTREELoop_step up (2 ^ 30) f M (w % 2 ^ (m + 1 + 1)) (2 ^ (m + 1))
      (pathNode 30 w d) (2 ^ (d + 1)) (Nat.two_pow_pos _) hL (by rw [pow_succ]; omega) hb hIlt hImax
    have hq : w % 2 ^ (m + 1 + 1) / 2 ^ (m + 1) = half 30 w d := half_eq_div 30 w d (m + 1) hk
    have hfit : 2 * pathNode 30 w d + 1 + half 30 w d ≤ 2147483647 ∧
        2 ^ (d + 1) * 2 ≤ 2147483647 := by
      have h1 := two_pow_le_int (d + 2) (by omega)
      have h3 := half_le_one 30 w d
      omega
    rw [hq, if_neg (not_not.mpr hfit), if_pos hpow] at hstep
    have hi : w % 2 ^ (m + 1 + 1) % 2 ^ (m + 1) = w % 2 ^ (m + 1) := mod_pow_succ_mod w (m + 1)
    have hx : 2 ^ (m + 1) / 2 = 2 ^ m := by rw [pow_succ]; simp
    have hl : 2 * pathNode 30 w d + 1 + half 30 w d = pathNode 30 w (d + 1) := rfl
    have hli : 2 ^ (d + 1) * 2 = 2 ^ (d + 1 + 1) := by rw [pow_succ 2 (d + 1)]
    rw [hi, hx, hl, hli] at hstep
    rw [hstep]
    exact ih (d + 1) f _ (by omega) (by omega) (by simpa using hM)

theorem setTREE_walk (up : Bool) (s : CacheSet) (k w : Nat) (blk : BlkPtr)
    (hk : 1 ≤ k) (hk30 : k ≤ 29) (hassoc : s.assoc = 2 ^ k) (hlen : s.blks.length = s.assoc)
    (hnodup : s.blks.Nodup) (hblk : s.blks[w]? = some blk)
    (hMRU : s.assoc ≤ s.MRU.length + 1) :
    ∃ M, setTREE up s blk = Res.ok { s with MRU := M } ∧ M.length = s.MRU.length ∧
      (∀ d, d < k → M[pathNode k w d]? = some (storedBit up (half k w d))) ∧
      (∀ j : Nat, (∀ d, d < k → j ≠ pathNode k w d) → M[j]? = s.MRU[j]?) := by
  obtain ⟨m, rfl⟩ : ∃ m, k = m + 1 := ⟨k - 1, by omega⟩
  have hwlt : w < s.blks.length := (List.getElem?_eq_some_iff.mp hblk).1
  have hw : w < 2 ^ (m + 1) := by omega
  have hfw : findWay s.blks blk s.assoc = Res.ok (w : Int) :=
    findWay_of_getElem s.blks blk hnodup w hblk s.assoc (by omega) (by omega)
  have hw1 : ¬ ((w : Int) = -1) := by omega
  have hfuel : m + 1 ≤ 2 ^ (m + 1) := Nat.le_of_lt (Nat.lt_two_pow (m + 1))
  obtain ⟨M, hrun, hlenM, hwr, hfr⟩ :=
    setTREELoop_walk up (m + 1) w hk30 m 0 (2 ^ (m + 1)) s.MRU (by omega) hfuel (by omega)
  have hdiv : Int.tdiv ((2 ^ (m + 1) : Nat) : Int) 2 = ((2 ^ m : Nat) : Int) := by
    have h1 := tdiv_natCast (2 ^ (m + 1)) 2
    have h2 : 2 ^ (m + 1) / 2 = 2 ^ m := by rw [pow_succ]; simp
    rw [h2] at h1
    simpa using h1
  have hloop : setTREELoop up (s.assoc : Int) s.assoc s.MRU (w : Int)
      (Int.tdiv (s.assoc : Int) 2) 0 2 = Res.ok M := by
    rw [hassoc, hdiv]
    rw [Nat.mod_eq_of_lt hw] at hrun
    exact hrun
  refine ⟨M, ?_, hlenM, fun d hd => hwr d (Nat.zero_le d) hd,
    fun j hj => hfr j (fun d _ hd => hj d hd)⟩
  simp only [setTREE, hfw, hw1, if_false, hloop]

theorem setTREE_overflow (up : Bool) (s : CacheSet) (w : Nat) (blk : BlkPtr)
    (hassoc : s.assoc = 2 ^ 30) (hlen : s.blks.length = s.assoc)
    (hnodup : s.blks.Nodup) (hblk : s.blks[w]? = some blk)
    (hMRU : s.assoc ≤ s.MRU.length + 1) :
    setTREE up s blk = Res.fault := by
  have hwlt : w < s.blks.length := (List.getElem?_eq_some_iff.mp hblk).1
  have hw : w < 2 ^ (29 + 1) := by omega
  have hfw : findWay s.blks blk s.assoc = Res.ok (w : Int) :=
    findWay_of_getElem s.blks blk hnodup w hblk s.assoc (by omega) (by omega)
  have hw1 : ¬ ((w : Int) = -1) := by omega
  have hfuel : 29 + 1 ≤ 2 ^ 30 := by norm_num
  have hrun := setTREELoop_overflow up w 29 0 (2 ^ 30) s.MRU (by omega) hfuel (by omega)
  have hdiv : Int.tdiv ((2 ^ 30 : Nat) : Int) 2 = ((2 ^ 29 : Nat) : Int) := by
    have h1 := tdiv_natCast (2 ^ 30) 2
    have h2 : 2 ^ 30 / 2 = 2 ^ 29 := by norm_num
    rw [h2] at h1
    simpa using h1
  have hloop : setTREELoop up (s.assoc : Int) s.assoc s.MRU (w : Int)
      (Int.tdiv (s.assoc : Int) 2) 0 2 = Res.fault := by
    rw [hassoc, hdiv]
    rw [Nat.mod_eq_of_lt hw] at hrun
    exact hrun
  simp only [setTREE, hfw, hw1, if_false, hloop]

theorem rangeSet_overflow (up : Bool) (n : Nat) (hn : n = 2 ^ 30) :
    setTREE up (rangeSet n) 0 = Res.fault := by
  have hpos : 0 < n := by rw [hn]; exact Nat.two_pow_pos 30
  apply setTREE_overflow up (rangeSet n) 0 0 hn
  · exact List.length_range n
  · exact List.nodup_range n
  · exact List.getElem?_range hpos
  · show n ≤ (List.replicate n (0 : Int)).length + 1
    rw [List.length_replicate]
    exact Nat.le_succ n

/-- C10 (counterexample): in a set of `assoc = 2^30` ways, `setTREEDown` and
`setTREEUp` on the block of way 0 do not return: in the iteration with
`li = 2^30` the statement `li *= 2` leaves the range of `int`. -/
theorem setTREE_overflows_wide :
    setTREEDown (rangeSet (2 ^ 30)) 0 = Res.fault
    ∧ setTREEUp (rangeSet (2 ^ 30)) 0 = Res.fault :=
  ⟨rangeSet_overflow false (2 ^ 30) rfl, rangeSet_overflow true (2 ^ 30) rfl⟩

/-- C10 (amended): for `assoc = 2^k` with `1 <= k <= 29` (so that `2 * assoc`
fits an `int`), a way `w` whose block is `blks[w]` (entries pairwise distinct)
and any tree state stored in an `MRU` array of at least `assoc - 1` entries,
`setTREEDown(blks[w])` returns, having written `half_d` into each of the `k`
nodes `n_0 = 0`, `n_{d+1} = 2 * n_d + 1 + half_d` of the walk formula (`half_d`
the `d`-th most significant bit of the `k`-bit representation of `w`), and
`setTREEUp(blks[w])` returns having written `1 - half_d` into the same nodes;
every other entry of `MRU`, and every other data member, the way array
included, is unchanged. -/
theorem setTREE_walk_formula (s : CacheSet) (k w : Nat) (blk : BlkPtr)
    (hk : 1 ≤ k) (hk30 : k ≤ 29) (hassoc : s.assoc = 2 ^ k) (hlen : s.blks.length = s.assoc)
    (hnodup : s.blks.Nodup) (hblk : s.blks[w]? = some blk)
    (hMRU : s.assoc ≤ s.MRU.length + 1) :
    (∃ M, setTREEDown s blk = Res.ok { s with MRU := M } ∧ M.length = s.MRU.length ∧
      (∀ d, d < k → M[pathNode k w d]? = some ((half k w d : Nat) : Int)) ∧
      (∀ j : Nat, (∀ d, d < k → j ≠ pathNode k w d) → M[j]? = s.MRU[j]?))
    ∧ (∃ M, setTREEUp s blk = Res.ok { s with MRU := M } ∧ M.length = s.MRU.length ∧
      (∀ d, d < k → M[pathNode k w d]? = some (1 - ((half k w d : Nat) : Int))) ∧
      (∀ j : Nat, (∀ d, d < k → j ≠ pathNode k w d) → M[j]? = s.MRU[j]?)) :=
  ⟨setTREE_walk false s k w blk hk hk30 hassoc hlen hnodup hblk hMRU,
    setTREE_walk true s k w blk hk hk30 hassoc hlen hnodup hblk hMRU⟩

/-- Witness for C10 (amended): way 5 of an eight-way set (`k = 3`). -/
theorem setTREE_walk_formula_witness :
    (∃ M, setTREEDown ⟨8, [10, 11, 12, 13, 14, 15, 16, 17], [7, 7, 7, 7, 7, 7, 7], 0,
          ⟨0, none, none⟩, ⟨0, none, none⟩, 2⟩ 15
        = Res.ok ⟨8, [10, 11, 12, 13, 14, 15, 16, 17], M, 0,
          ⟨0, none, none⟩, ⟨0, none, none⟩, 2⟩ ∧
      M.length = 7 ∧
      (∀ d, d < 3 → M[pathNode 3 5 d]? = some ((half 3 5 d : Nat) : Int)) ∧
      (∀ j : Nat, (∀ d, d < 3 → j ≠ pathNode 3 5 d) → M[j]? = [7, 7, 7, 7, 7, 7, 7][j]?))
    ∧ (∃ M, setTREEUp ⟨8, [10, 11, 12, 13, 14, 15, 16, 17], [7, 7, 7, 7, 7, 7, 7], 0,
          ⟨0, none, none⟩, ⟨0, none, none⟩, 2⟩ 15
        = Res.ok ⟨8, [10, 11, 12, 13, 14, 15, 16, 17], M, 0,
          ⟨0, none, none⟩, ⟨0, none, none⟩, 2⟩ ∧
      M.length = 7 ∧
      (∀ d, d < 3 → M[pathNode 3 5 d]? = some (1 - ((half 3 5 d : Nat) : Int))) ∧
      (∀ j : Nat, (∀ d, d < 3 → j ≠ pathNode 3 5 d) → M[j]? = [7, 7, 7, 7, 7, 7, 7][j]?)) :=
  setTREE_walk_formula ⟨8, [10, 11, 12, 13, 14, 15, 16, 17], [7, 7, 7, 7, 7, 7, 7], 0,
    ⟨0, none, none⟩, ⟨0, none, none⟩, 2⟩ 3 5 15 (by decide) (by decide) (by decide) (by decide)
    (by decide) (by decide) (by decide)

/-! ## Pseudo-LRU tree: `findTREE` -/

theorem readAt_natCast (M : List Int) (L : Nat) : readAt M (L : Int) = M[L]? := by
  have h0 : (0 : Int) ≤ (L : Int) := Int.ofNat_nonneg L
  simp [readAt]

theorem findTREELoop_step (A fuel : Nat) (M : List Int) (L li b : Nat)
    (hb : M[L]? = some (b : Int)) (hli : li % 2 = 0) :
    findTREELoop (A : Int) M (fuel + 1) (L : Int) (li : Int)
      = if li < A then
          findTREELoop (A : Int) M fuel ((2 * L + 1 + b : Nat) : Int) ((li * 2 : Nat) : Int)
        else Res.ok ((L : Int), (li : Int)) := by
  have hl2 : Int.tdiv (li : Int) 2 = ((li / 2 : Nat) : Int) := by
    have := tdiv_natCast li 2
    simpa using this
  have hlast : 2 * ((L : Int) - ((li / 2 : Nat) : Int) + 1) + (b : Int) + (li : Int) - 1
      = ((2 * L + 1 + b : Nat) : Int) := by
    have h1 : 2 * (li / 2) = li := by omega
    have h2 : (2 : Int) * ((li / 2 : Nat) : Int) = (li : Int) := by exact_mod_cast h1
    push_cast
    linarith
  have hli2 : (li : Int) * 2 = ((li * 2 : Nat) : Int) := by push_cast; ring
  have hcond : (li : Int) < (A : Int) ↔ li < A := Int.ofNat_lt
  simp only [findTREELoop, readAt_natCast, hb, hl2, hlast, hli2, hcond]

theorem findTREELoop_walk (k w : Nat) (M : List Int)
    (hM : ∀ d, d < k → M[pathNode k w d]? = some ((half k w d : Nat) : Int)) :
    ∀ (m d fuel : Nat), d + m + 1 = k → m + 1 ≤ fuel →
      findTREELoop ((2 ^ k : Nat) : Int) M fuel ((pathNode k w d : Nat) : Int)
          ((2 ^ (d + 1) : Nat) : Int)
        = Res.ok (((pathNode k w (k - 1) : Nat) : Int), ((2 ^ k : Nat) : Int)) := by
  intro m
  induction m with
  | zero =>
    intro d fuel hk hfuel
    obtain ⟨f, rfl⟩ : ∃ f, fuel = f + 1 := ⟨fuel - 1, by omega⟩
    have hkd : k = d + 1 := by omega
    have hstep := findTREELoop_step (2 ^ k) f M (pathNode k w d) (2 ^ (d + 1)) (half k w d)
      (hM d (by omega)) (by rw [pow_succ]; omega)
    have hcond : ¬ (2 ^ (d + 1) < 2 ^ k) := by rw [hkd]; omega
    rw [if_neg hcond] at hstep
    rw [hstep, hkd]
    simp
  | succ m ih =>
    intro d fuel hk hfuel
    obtain ⟨f, rfl⟩ : ∃ f, fuel = f + 1 := ⟨fuel - 1, by omega⟩
    have hstep := findTREELoop_step (2 ^ k) f M (pathNode k w d) (2 ^ (d + 1)) (half k w d)
      (hM d (by omega)) (by rw [pow_succ]; omega)
    have hcond : 2 ^ (d + 1) < 2 ^ k := Nat.pow_lt_pow_right (by decide) (by omega)
    rw [if_pos hcond] at hstep
    have hl : 2 * pathNode k w d + 1 + half k w d = pathNode k w (d + 1) := rfl
    have hli : 2 ^ (d + 1) * 2 = 2 ^ (d + 1 + 1) := (pow_succ 2 (d + 1)).symm
    rw [hl, hli] at hstep
    rw [hstep]
    exact ih (d + 1) f (by omega) (by omega)

theorem pathNode_eq (k w : Nat) (hw : w < 2 ^ k) :
    ∀ d, d ≤ k → pathNode k w d + 1 = 2 ^ d + w / 2 ^ (k - d) := by
  intro d
  induction d with
  | zero =>
    intro _
    simp [pathNode, Nat.div_eq_of_lt hw]
  | succ d ih =>
    intro hd
    have h1 := ih (by omega)
    have hsplit : k - d = (k - (d + 1)) + 1 := by omega
    have hdiv : w / 2 ^ (k - d) = w / 2 ^ (k - (d + 1)) / 2 := by
      rw [hsplit, pow_succ, Nat.div_div_eq_div_mul]
    have hhalf : half k w d = w / 2 ^ (k - (d + 1)) % 2 := by
      unfold half
      have : k - 1 - d = k - (d + 1) := by omega
      rw [this]
    have hp : 2 ^ (d + 1) = 2 * 2 ^ d := by rw [pow_succ]; ring
    simp only [pathNode]
    rw [hhalf, hp]
    rw [hdiv] at h1
    omega

theorem findTREE_of_marked (s : CacheSet) (k w : Nat) (hk : 1 ≤ k) (hassoc : s.assoc = 2 ^ k)
    (hw : w < 2 ^ k)
    (hM : ∀ d, d < k → s.MRU[pathNode k w d]? = some ((half k w d : Nat) : Int)) :
    findTREE s = Res.ok (w : Int) := by
  obtain ⟨m, rfl⟩ : ∃ m, k = m + 1 := ⟨k - 1, by omega⟩
  have hfuel : m + 1 ≤ 2 ^ (m + 1) + 1 := by
    have := Nat.lt_two_pow (m + 1)
    omega
  have hloop := findTREELoop_walk (m + 1) w s.MRU hM m 0 (2 ^ (m + 1) + 1) (by omega) hfuel
  have hp0 : ((pathNode (m + 1) w 0 : Nat) : Int) = 0 := by simp [pathNode]
  have hp1 : ((2 ^ (0 + 1) : Nat) : Int) = 2 := by norm_num
  rw [hp0, hp1] at hloop
  have hlast := pathNode_eq (m + 1) w hw m (by omega)
  have hd : m + 1 - m = 1 := by omega
  rw [hd] at hlast
  have hhalf : half (m + 1) w m = w % 2 := by
    unfold half
    have : m + 1 - 1 - m = 0 := by omega
    rw [this]
    simp
  have hread := hM m (by omega)
  rw [hhalf] at hread
  have hl2 : Int.tdiv ((2 ^ (m + 1) : Nat) : Int) 2 = ((2 ^ m : Nat) : Int) := by
    have h1 := tdiv_natCast (2 ^ (m + 1)) 2
    have h2 : 2 ^ (m + 1) / 2 = 2 ^ m := by rw [pow_succ]; simp
    rw [h2] at h1
    simpa using h1
  have hfin : 2 * (((pathNode (m + 1) w m : Nat) : Int) - ((2 ^ m : Nat) : Int) + 1)
      + ((w % 2 : Nat) : Int) = (w : Int) := by
    have h3 : pathNode (m + 1) w m + 1 = 2 ^ m + w / 2 := by simpa using hlast
    have h4 : ((pathNode (m + 1) w m : Nat) : Int) + 1 = ((2 ^ m : Nat) : Int) + ((w / 2 : Nat) : Int) := by
      exact_mod_cast h3
    have h5 : 2 * (w / 2) + w % 2 = w := Nat.div_add_mod w 2
    have h6 : (2 : Int) * ((w / 2 : Nat) : Int) + ((w % 2 : Nat) : Int) = (w : Int) := by
      exact_mod_cast h5
    linarith
  have hm1 : m + 1 - 1 = m := by omega
  rw [hm1] at hloop
  simp only [findTREE, hassoc, hloop, readAt_natCast, hread, hl2, hfin]

/-- C11 (counterexample): in a set of `assoc = 2^30` ways, `setTREEDown` on the
block of way 0 does not return (its `li *= 2` leaves the range of `int`), so no
`findTREE` right after it returns way 0. -/
theorem findTREE_after_setTREEDown_wide :
    ¬ ∃ s1, setTREEDown (rangeSet (2 ^ 30)) 0 = Res.ok s1 ∧ findTREE s1 = Res.ok 0 := by
  rintro ⟨s1, h1, _⟩
  have hf : setTREEDown (rangeSet (2 ^ 30)) 0 = Res.fault := rangeSet_overflow false (2 ^ 30) rfl
  rw [hf] at h1
  cases h1

/-- C11 (amended): for `assoc = 2^k` with `1 <= k <= 29` (so that `2 * assoc`
fits an `int`), a way `w` whose block is `blks[w]` (entries pairwise distinct)
and any prior tree state (in an `MRU` array of at least `assoc - 1` entries),
`setTREEDown(blks[w])` returns and `findTREE` called on the set it leaves
returns exactly `w`. -/
theorem findTREE_after_setTREEDown (s : CacheSet) (k w : Nat) (blk : BlkPtr)
    (hk : 1 ≤ k) (hk30 : k ≤ 29) (hassoc : s.assoc = 2 ^ k) (hlen : s.blks.length = s.assoc)
    (hnodup : s.blks.Nodup) (hblk : s.blks[w]? = some blk)
    (hMRU : s.assoc ≤ s.MRU.length + 1) :
    ∃ s1, setTREEDown s blk = Res.ok s1 ∧ findTREE s1 = Res.ok (w : Int) := by
  obtain ⟨M, hrun, _, hwr, _⟩ :=
    setTREE_walk false s k w blk hk hk30 hassoc hlen hnodup hblk hMRU
  have hwlt : w < s.blks.length := (List.getElem?_eq_some_iff.mp hblk).1
  refine ⟨{ s with MRU := M }, hrun, ?_⟩
  exact findTREE_of_marked { s with MRU := M } k w hk hassoc (by omega) hwr

/-- Witness for C11 (amended): way 5 of an eight-way set. -/
theorem findTREE_after_setTREEDown_witness :
    ∃ s1, setTREEDown ⟨8, [10, 11, 12, 13, 14, 15, 16, 17], [7, 7, 7, 7, 7, 7, 7], 0,
          ⟨0, none, none⟩, ⟨0, none, none⟩, 2⟩ 15 = Res.ok s1 ∧
      findTREE s1 = Res.ok ((5 : Nat) : Int) :=
  findTREE_after_setTREEDown ⟨8, [10, 11, 12, 13, 14, 15, 16, 17], [7, 7, 7, 7, 7, 7, 7], 0,
    ⟨0, none, none⟩, ⟨0, none, none⟩, 2⟩ 3 5 15 (by decide) (by decide) (by decide) (by decide)
    (by decide) (by decide) (by decide)

theorem setTREE_of_loop (up : Bool) (s : CacheSet) (blk : BlkPtr) (w : Int) (M : List Int)
    (hf : findWay s.blks blk s.assoc = Res.ok w) (hw : ¬ (w = -1))
    (h : setTREELoop up s.assoc s.assoc s.MRU w (Int.tdiv s.assoc 2) 0 2 = Res.ok M) :
    setTREE up s blk = Res.ok { s with MRU := M } := by
  simp only [setTREE, hf, hw, if_false, h]

theorem treeLoop4_way0 (up : Bool) (a b c : Int) (rest : List Int) :
    setTREELoop up ((4 : Nat) : Int) 4 (a :: b :: c :: rest) 0 (Int.tdiv ((4 : Nat) : Int) 2) 0 2
      = Res.ok (storedBit up 0 :: storedBit up 0 :: c :: rest) := by
  cases up <;> simp [setTREELoop, writeAt, Int.tdiv, storedBit, allInInt, inInt, INT_MIN, INT_MAX]

theorem treeLoop4_way1 (up : Bool) (a b c : Int) (rest : List Int) :
    setTREELoop up ((4 : Nat) : Int) 4 (a :: b :: c :: rest) 1 (Int.tdiv ((4 : Nat) : Int) 2) 0 2
      = Res.ok (storedBit up 0 :: storedBit up 1 :: c :: rest) := by
  cases up <;> simp [setTREELoop, writeAt, Int.tdiv, storedBit, allInInt, inInt, INT_MIN, INT_MAX]

theorem treeLoop4_way2 (up : Bool) (a b c : Int) (rest : List Int) :
    setTREELoop up ((4 : Nat) : Int) 4 (a :: b :: c :: rest) 2 (Int.tdiv ((4 : Nat) : Int) 2) 0 2
      = Res.ok (storedBit up 1 :: b :: storedBit up 0 :: rest) := by
  cases up <;> simp [setTREELoop, writeAt, Int.tdiv, storedBit, allInInt, inInt, INT_MIN, INT_MAX]

theorem treeLoop4_way3 (up : Bool) (a b c : Int) (rest : List Int) :
    setTREELoop up ((4 : Nat) : Int) 4 (a :: b :: c :: rest) 3 (Int.tdiv ((4 : Nat) : Int) 2) 0 2
      = Res.ok (storedBit up 1 :: b :: storedBit up 1 :: rest) := by
  cases up <;> simp [setTREELoop, writeAt, Int.tdiv, storedBit, allInInt, inInt, INT_MIN, INT_MAX]

theorem findWay_treeSet4 (M : List Int) :
    findWay (treeSet4 M).blks 10 (treeSet4 M).assoc = Res.ok 0
    ∧ findWay (treeSet4 M).blks 11 (treeSet4 M).assoc = Res.ok 1
    ∧ findWay (treeSet4 M).blks 12 (treeSet4 M).assoc = Res.ok 2
    ∧ findWay (treeSet4 M).blks 13 (treeSet4 M).assoc = Res.ok 3 := by
  refine ⟨rfl, rfl, rfl, rfl⟩

theorem treeSet4_down0 (a b c : Int) (rest : List Int) :
    setTREEDown (treeSet4 (a :: b :: c :: rest)) 10
      = Res.ok (treeSet4 (0 :: 0 :: c :: rest)) :=
  setTREE_of_loop false (treeSet4 (a :: b :: c :: rest)) 10 0 _
    (findWay_treeSet4 _).1 (by decide) (treeLoop4_way0 false a b c rest)

theorem treeSet4_down1 (c : Int) (rest : List Int) :
    setTREEDown (treeSet4 (0 :: 0 :: c :: rest)) 11
      = Res.ok (treeSet4 (0 :: 1 :: c :: rest)) :=
  setTREE_of_loop false (treeSet4 (0 :: 0 :: c :: rest)) 11 1 _
    (findWay_treeSet4 _).2.1 (by decide) (treeLoop4_way1 false 0 0 c rest)

theorem treeSet4_down2 (c : Int) (rest : List Int) :
    setTREEDown (treeSet4 (0 :: 1 :: c :: rest)) 12
      = Res.ok (treeSet4 (1 :: 1 :: 0 :: rest)) :=
  setTREE_of_loop false (treeSet4 (0 :: 1 :: c :: rest)) 12 2 _
    (findWay_treeSet4 _).2.2.1 (by decide) (treeLoop4_way2 false 0 1 c rest)

theorem treeSet4_up3 (rest : List Int) :
    setTREEUp (treeSet4 (1 :: 1 :: 0 :: rest)) 13
      = Res.ok (treeSet4 (0 :: 1 :: 0 :: rest)) :=
  setTREE_of_loop true (treeSet4 (1 :: 1 :: 0 :: rest)) 13 3 _
    (findWay_treeSet4 _).2.2.2 (by decide) (treeLoop4_way3 true 1 1 0 rest)

theorem Res.bind_ok {α β : Type} (a : α) (f : α → Res β) : (Res.ok a).bind f = f a := rfl

/-- C12: for `assoc = 4` with `blks[i]` the block of way `i` and any initial
tree state `a, b, c` (followed by whatever else the `MRU` array holds), after
`setTREEDown` on ways 0, 1, 2 and `setTREEUp` on way 3 the three direction bits
are `0, 1, 0`, and `findTREE` then returns way 1. -/
theorem tree_fixture (a b c : Int) (rest : List Int) :
    treeFixture (a :: b :: c :: rest) = Res.ok (treeSet4 (0 :: 1 :: 0 :: rest))
    ∧ findTREE (treeSet4 (0 :: 1 :: 0 :: rest)) = Res.ok 1 := by
  constructor
  · unfold treeFixture
    rw [treeSet4_down0, Res.bind_ok, treeSet4_down1, Res.bind_ok, treeSet4_down2,
      Res.bind_ok, treeSet4_up3]
  · simp [findTREE, treeSet4, findTREELoop, readAt, Int.tdiv]

theorem setTREE_twice (up : Bool) (s : CacheSet) (k w : Nat) (blk : BlkPtr)
    (hk : 1 ≤ k) (hk30 : k ≤ 29) (hassoc : s.assoc = 2 ^ k) (hlen : s.blks.length = s.assoc)
    (hnodup : s.blks.Nodup) (hblk : s.blks[w]? = some blk)
    (hMRU : s.assoc ≤ s.MRU.length + 1) :
    ∃ s1, setTREE up s blk = Res.ok s1 ∧ setTREE up s1 blk = Res.ok s1 := by
  obtain ⟨M, hrun, hlenM, hwr, _⟩ :=
    setTREE_walk up s k w blk hk hk30 hassoc hlen hnodup hblk hMRU
  obtain ⟨M2, hrun2, _, hwr2, hfr2⟩ :=
    setTREE_walk up { s with MRU := M } k w blk hk hk30 hassoc hlen hnodup hblk
      (by simpa [hlenM] using hMRU)
  have hM : M2 = M := by
    apply List.ext_getElem?
    intro j
    by_cases hj : ∃ d, d < k ∧ j = pathNode k w d
    · obtain ⟨d, hd, rfl⟩ := hj
      rw [hwr2 d hd, hwr d hd]
    · exact hfr2 j (fun d hd he => hj ⟨d, hd, he⟩)
  rw [hM] at hrun2
  exact ⟨{ s with MRU := M }, hrun, hrun2⟩

/-- C13 (counterexample): in a set of `assoc = 2^30` ways neither `setTREEUp`
nor `setTREEDown` on the block of way 0 leaves a tree state, once or twice:
the call does not return (its `li *= 2` leaves the range of `int`). -/
theorem setTREE_idempotent_wide :
    (¬ ∃ s1, setTREEUp (rangeSet (2 ^ 30)) 0 = Res.ok s1 ∧ setTREEUp s1 0 = Res.ok s1)
    ∧ (¬ ∃ s1, setTREEDown (rangeSet (2 ^ 30)) 0 = Res.ok s1 ∧
        setTREEDown s1 0 = Res.ok s1) := by
  constructor
  · rintro ⟨s1, h1, _⟩
    have hf : setTREEUp (rangeSet (2 ^ 30)) 0 = Res.fault := rangeSet_overflow true (2 ^ 30) rfl
    rw [hf] at h1
    cases h1
  · rintro ⟨s1, h1, _⟩
    have hf : setTREEDown (rangeSet (2 ^ 30)) 0 = Res.fault :=
      rangeSet_overflow false (2 ^ 30) rfl
    rw [hf] at h1
    cases h1

/-- C13 (amended): for `assoc = 2^k` with `1 <= k <= 29` (so that `2 * assoc`
fits an `int`), a way `w` whose block `blks[w]` is in the set (entries pairwise
distinct) and any tree state (in an `MRU` array of at least `assoc - 1`
entries), `setTREEUp` applied a second time to the set its first application
leaves returns that same set; likewise `setTREEDown`. -/
theorem setTREE_idempotent (s : CacheSet) (k w : Nat) (blk : BlkPtr)
    (hk : 1 ≤ k) (hk30 : k ≤ 29) (hassoc : s.assoc = 2 ^ k) (hlen : s.blks.length = s.assoc)
    (hnodup : s.blks.Nodup) (hblk : s.blks[w]? = some blk)
    (hMRU : s.assoc ≤ s.MRU.length + 1) :
    (∃ s1, setTREEUp s blk = Res.ok s1 ∧ setTREEUp s1 blk = Res.ok s1)
    ∧ (∃ s1, setTREEDown s blk = Res.ok s1 ∧ setTREEDown s1 blk = Res.ok s1) :=
  ⟨setTREE_twice true s k w blk hk hk30 hassoc hlen hnodup hblk hMRU,
    setTREE_twice false s k w blk hk hk30 hassoc hlen hnodup hblk hMRU⟩

/-- Witness for C13 (amended): way 2 of a four-way set. -/
theorem setTREE_idempotent_witness :
    (∃ s1, setTREEUp (treeSet4 [7, 8, 9]) 12 = Res.ok s1 ∧ setTREEUp s1 12 = Res.ok s1)
    ∧ (∃ s1, setTREEDown (treeSet4 [7, 8, 9]) 12 = Res.ok s1 ∧
        setTREEDown s1 12 = Res.ok s1) :=
  setTREE_idempotent (treeSet4 [7, 8, 9]) 2 2 12 (by decide) (by decide) (by decide)
    (by decide) (by decide) (by decide) (by decide)

/-- C20 (evaluation at the failing input): in a one-way set (`assoc = 1`, a
power of two) `index = assoc / 2` is 0, and `setTREEDown` and `setTREEUp` on the
block of way 0 divide by it in their first iteration, whatever the `MRU` array
holds; `findTREE` reads `MRU[0]` although the tree has no node, which is
outside an array of `assoc - 1 = 0` entries, and with an array that holds a 1
there it returns 1, not a way index below `assoc`. -/
theorem tree_ops_fail_on_one_way (MRU : List Int) :
    Int.tdiv ((treeSet1 MRU).assoc : Int) 2 = 0
    ∧ setTREEDown (treeSet1 MRU) 10 = Res.fault
    ∧ setTREEUp (treeSet1 MRU) 10 = Res.fault
    ∧ findTREE (treeSet1 []) = Res.fault
    ∧ findTREE (treeSet1 [1]) = Res.ok 1 := by
  refine ⟨by simp [treeSet1, Int.tdiv], ?_, ?_, by decide, by decide⟩
  · simp [setTREEDown, setTREE, treeSet1, findWay, setTREELoop, Int.tdiv]
  · simp [setTREEUp, setTREE, treeSet1, findWay, setTREELoop, Int.tdiv]

theorem bit_natCast (M : List Int) (hbits : ∀ x ∈ M, x = 0 ∨ x = 1) (L : Nat)
    (hL : L < M.length) : ∃ b : Nat, b ≤ 1 ∧ M[L]? = some (b : Int) := by
  rcases hbits M[L] (List.getElem_mem hL) with h | h
  · exact ⟨0, by omega, by rw [List.getElem?_eq_getElem hL, h]; rfl⟩
  · exact ⟨1, by omega, by rw [List.getElem?_eq_getElem hL, h]; rfl⟩

theorem findTREELoop_in_bounds (k : Nat) (M : List Int) (hlen : M.length + 1 = 2 ^ k)
    (hbits : ∀ x ∈ M, x = 0 ∨ x = 1) :
    ∀ (m d fuel last : Nat), d + m + 1 = k → m + 1 ≤ fuel →
      2 ^ d ≤ last + 1 → last + 2 ≤ 2 ^ (d + 1) →
      ∃ last' : Nat, findTREELoop ((2 ^ k : Nat) : Int) M fuel (last : Int)
            ((2 ^ (d + 1) : Nat) : Int) = Res.ok ((last' : Int), ((2 ^ k : Nat) : Int)) ∧
        2 ^ (k - 1) ≤ last' + 1 ∧ last' + 2 ≤ 2 ^ k := by
  intro m
  induction m with
  | zero =>
    intro d fuel last hk hfuel hlo hhi
    obtain ⟨f, rfl⟩ : ∃ f, fuel = f + 1 := ⟨fuel - 1, by omega⟩
    have hkd : k = d + 1 := by omega
    have hL : last < M.length := by rw [hkd] at hlen; omega
    obtain ⟨b, _, hb⟩ := bit_natCast M hbits last hL
    have hstep := findTREELoop_step (2 ^ k) f M last (2 ^ (d + 1)) b hb (by rw [pow_succ]; omega)
    have hcond : ¬ (2 ^ (d + 1) < 2 ^ k) := by rw [hkd]; omega
    rw [if_neg hcond] at hstep
    refine ⟨last, ?_, ?_, ?_⟩
    · rw [hstep, hkd]
    · rw [hkd]; simpa using hlo
    · rw [hkd]; exact hhi
  | succ m ih =>
    intro d fuel last hk hfuel hlo hhi
    obtain ⟨f, rfl⟩ : ∃ f, fuel = f + 1 := ⟨fuel - 1, by omega⟩
    have hpow : 2 ^ (d + 1) < 2 ^ k := Nat.pow_lt_pow_right (by decide) (by omega)
    have hL : last < M.length := by omega
    obtain ⟨b, hb1, hb⟩ := bit_natCast M hbits last hL
    have hstep := findTREELoop_step (2 ^ k) f M last (2 ^ (d + 1)) b hb (by rw [pow_succ]; omega)
    rw [if_pos hpow] at hstep
    have hli : 2 ^ (d + 1) * 2 = 2 ^ (d + 1 + 1) := (pow_succ 2 (d + 1)).symm
    rw [hli] at hstep
    have h1 : 2 ^ (d + 1) = 2 * 2 ^ d := by rw [pow_succ]; ring
    have h2 : 2 ^ (d + 1 + 1) = 2 * 2 ^ (d + 1) := by rw [pow_succ]; ring
    obtain ⟨last', hrun, hlo', hhi'⟩ :=
      ih (d + 1) f (2 * last + 1 + b) (by omega) (by omega) (by omega) (by omega)
    exact ⟨last', hstep.trans hrun, hlo', hhi'⟩

/-- For `assoc = 2^k` with `1 <= k <= 29`, a tree of exactly `assoc - 1`
direction bits, each 0 or 1: `setTREEDown` and `setTREEUp` on the block of a way return
(no division by zero, every write inside the tree), and `findTREE` returns
(every read inside the tree) a way index in `[0, assoc)`. -/
theorem tree_ops_in_bounds (s : CacheSet) (k w : Nat) (blk : BlkPtr)
    (hk : 1 ≤ k) (hk30 : k ≤ 29) (hassoc : s.assoc = 2 ^ k) (hlen : s.blks.length = s.assoc)
    (hnodup : s.blks.Nodup) (hblk : s.blks[w]? = some blk)
    (hMRU : s.MRU.length + 1 = s.assoc) (hbits : ∀ x ∈ s.MRU, x = 0 ∨ x = 1) :
    (∃ s1, setTREEDown s blk = Res.ok s1) ∧ (∃ s1, setTREEUp s blk = Res.ok s1)
    ∧ ∃ v : Int, findTREE s = Res.ok v ∧ 0 ≤ v ∧ v < (s.assoc : Int) := by
  obtain ⟨M1, h1, _⟩ := setTREE_walk false s k w blk hk hk30 hassoc hlen hnodup hblk (by omega)
  obtain ⟨M2, h2, _⟩ := setTREE_walk true s k w blk hk hk30 hassoc hlen hnodup hblk (by omega)
  refine ⟨⟨_, h1⟩, ⟨_, h2⟩, ?_⟩
  obtain ⟨m, rfl⟩ : ∃ m, k = m + 1 := ⟨k - 1, by omega⟩
  have hfuel : m + 1 ≤ 2 ^ (m + 1) + 1 := by
    have := Nat.lt_two_pow (m + 1)
    omega
  obtain ⟨last, hloop, hlo, hhi⟩ :=
    findTREELoop_in_bounds (m + 1) s.MRU (by omega) hbits m 0 (2 ^ (m + 1) + 1) 0
      (by omega) hfuel (by simp) (by simp)
  have hp1 : ((2 ^ (0 + 1) : Nat) : Int) = 2 := by norm_num
  rw [hp1] at hloop
  have hm1 : m + 1 - 1 = m := by omega
  rw [hm1] at hlo
  have hL : last < s.MRU.length := by omega
  obtain ⟨b, hb1, hb⟩ := bit_natCast s.MRU hbits last hL
  have hl2 : Int.tdiv ((2 ^ (m + 1) : Nat) : Int) 2 = ((2 ^ m : Nat) : Int) := by
    have h1 := tdiv_natCast (2 ^ (m + 1)) 2
    have h2 : 2 ^ (m + 1) / 2 = 2 ^ m := by rw [pow_succ]; simp
    rw [h2] at h1
    simpa using h1
  have hpw : 2 ^ (m + 1) = 2 * 2 ^ m := by rw [pow_succ]; ring
  refine ⟨2 * ((last : Int) - ((2 ^ m : Nat) : Int) + 1) + (b : Int), ?_, ?_, ?_⟩
  · have hz : ((0 : Nat) : Int) = 0 := rfl
    rw [hz] at hloop
    simp only [findTREE, hassoc, hloop, readAt_natCast, hb, hl2]
  · omega
  · rw [hassoc]
    omega

/-! ## MRU bit vector -/

/-- C14 (evaluation at the failing input): in a four-way set the reset state
satisfies the invariant, and so does the state after `setMRUUp` on way 0
(bits `1,0,0,0`, `MRU_count = 1`); a second `setMRUUp` on way 0, whose bit is
already 1, raises `MRU_count` to 2 while one bit is 1, which breaks the
invariant. -/
theorem setMRUUp_counts_set_bit_again :
    MRUInv (initSet 4 [10, 11, 12, 13] 2)
    ∧ runMRU [MRUOp.up 0] (initSet 4 [10, 11, 12, 13] 2)
      = Res.ok ⟨4, [10, 11, 12, 13], [1, 0, 0, 0], 1, ⟨0, none, none⟩, ⟨0, none, none⟩, 2⟩
    ∧ MRUInv ⟨4, [10, 11, 12, 13], [1, 0, 0, 0], 1, ⟨0, none, none⟩, ⟨0, none, none⟩, 2⟩
    ∧ setMRUUp ⟨4, [10, 11, 12, 13], [1, 0, 0, 0], 1, ⟨0, none, none⟩, ⟨0, none, none⟩, 2⟩ 10
      = Res.ok ⟨4, [10, 11, 12, 13], [1, 0, 0, 0], 2, ⟨0, none, none⟩, ⟨0, none, none⟩, 2⟩
    ∧ ¬ MRUInv ⟨4, [10, 11, 12, 13], [1, 0, 0, 0], 2, ⟨0, none, none⟩, ⟨0, none, none⟩, 2⟩ := by
  refine ⟨by decide, by decide, by decide, by decide, by decide⟩

theorem clearMRU_spec :
    ∀ (mid pre post : List Int),
      clearMRU mid.length pre.length (pre ++ mid ++ post)
        = some (pre ++ List.replicate mid.length 0 ++ post) := by
  intro mid
  induction mid with
  | nil =>
    intro pre post
    simp [clearMRU]
  | cons m mid ih =>
    intro pre post
    have hj : pre.length < (pre ++ m :: mid ++ post).length := by simp
    have hset : (pre ++ m :: mid ++ post).set pre.length 0 = pre ++ [0] ++ mid ++ post := by
      simp
    have hrec := ih (pre ++ [0]) post
    simp only [List.length_append, List.length_singleton] at hrec
    simp only [List.length_cons, clearMRU]
    rw [writeAt_natCast _ _ 0 hj, hset]
    simp only
    rw [hrec, List.replicate_succ]
    simp

theorem clearMRU_all (M : List Int) :
    clearMRU M.length 0 M = some (List.replicate M.length 0) := by
  have := clearMRU_spec M [] []
  simpa using this

theorem setMRUUp_eq (s : CacheSet) (w : Nat) (blk : BlkPtr)
    (hlen : s.blks.length = s.assoc) (hnodup : s.blks.Nodup) (hblk : s.blks[w]? = some blk)
    (hM : s.MRU.length = s.assoc) :
    setMRUUp s blk
      = if s.MRU_count + 1 ≥ (s.assoc : Int) then
          Res.ok { s with MRU := (List.replicate s.assoc 0).set w 1, MRU_count := 1 }
        else Res.ok { s with MRU := s.MRU.set w 1, MRU_count := s.MRU_count + 1 } := by
  have hwlt : w < s.blks.length := (List.getElem?_eq_some_iff.mp hblk).1
  have hfw : findWay s.blks blk s.assoc = Res.ok (w : Int) :=
    findWay_of_getElem s.blks blk hnodup w hblk s.assoc (by omega) (by omega)
  have hw1 : ¬ ((w : Int) = -1) := by omega
  have hwM : w < s.MRU.length := by omega
  have hclear : clearMRU s.assoc 0 (s.MRU.set w 1) = some (List.replicate s.assoc 0) := by
    have := clearMRU_all (s.MRU.set w 1)
    simpa [hM] using this
  have hwR : w < (List.replicate s.assoc (0 : Int)).length := by simp; omega
  by_cases hc : s.MRU_count + 1 ≥ (s.assoc : Int)
  · simp only [setMRUUp, hfw, hw1, if_false, writeAt_natCast _ _ _ hwM, hc, if_true, hclear,
      writeAt_natCast _ _ _ hwR]
  · simp only [setMRUUp, hfw, hw1, if_false, writeAt_natCast _ _ _ hwM, hc]

theorem setMRUDown_eq (s : CacheSet) (w : Nat) (blk : BlkPtr)
    (hlen : s.blks.length = s.assoc) (hnodup : s.blks.Nodup) (hblk : s.blks[w]? = some blk)
    (hM : s.MRU.length = s.assoc) :
    ∃ b, s.MRU[w]? = some b ∧
      setMRUDown s blk
        = Res.ok { s with MRU := s.MRU.set w 0,
                          MRU_count := if b = 1 then s.MRU_count - 1 else s.MRU_count } := by
  have hwlt : w < s.blks.length := (List.getElem?_eq_some_iff.mp hblk).1
  have hfw : findWay s.blks blk s.assoc = Res.ok (w : Int) :=
    findWay_of_getElem s.blks blk hnodup w hblk s.assoc (by omega) (by omega)
  have hw1 : ¬ ((w : Int) = -1) := by omega
  have hwM : w < s.MRU.length := by omega
  have hget : s.MRU[w]? = some s.MRU[w] := List.getElem?_eq_getElem hwM
  refine ⟨s.MRU[w], hget, ?_⟩
  simp only [setMRUDown, hfw, hw1, if_false, readAt_natCast, hget, writeAt_natCast _ _ _ hwM]

theorem runMRU_cons_ok (op : MRUOp) (ops : List MRUOp) (s s1 : CacheSet)
    (h : stepMRU op s = Res.ok s1) : runMRU (op :: ops) s = runMRU ops s1 := by
  simp [runMRU, h]

theorem stepMRU_up (s : CacheSet) (w : Nat) (hw : w < s.blks.length) :
    stepMRU (MRUOp.up w) s = setMRUUp s s.blks[w] := by
  simp [stepMRU, List.getElem?_eq_getElem hw]

theorem stepMRU_down (s : CacheSet) (w : Nat) (hw : w < s.blks.length) :
    stepMRU (MRUOp.down w) s = setMRUDown s s.blks[w] := by
  simp [stepMRU, List.getElem?_eq_getElem hw]

theorem runMRU_saturates :
    ∀ (ws : List Nat) (s : CacheSet), s.blks.length = s.assoc → s.blks.Nodup →
      s.MRU.length = s.assoc → (∀ w ∈ ws, w < s.assoc) →
      s.MRU_count + (ws.length : Int) = (s.assoc : Int) →
      ∀ wl, ws.getLast? = some wl →
        runMRU (ws.map MRUOp.up) s
          = Res.ok { s with MRU := (List.replicate s.assoc 0).set wl 1, MRU_count := 1 } := by
  intro ws
  induction ws with
  | nil =>
    intro s _ _ _ _ _ wl hl
    simp at hl
  | cons w ws ih =>
    intro s hlen hnodup hM hws hcount wl hl
    have hw : w < s.assoc := hws w (List.mem_cons_self w ws)
    have hget : s.blks[w]? = some s.blks[w] := List.getElem?_eq_getElem (by omega)
    have hup := setMRUUp_eq s w s.blks[w] hlen hnodup hget hM
    cases ws with
    | nil =>
      have hwl : wl = w := by simpa using hl.symm
      subst hwl
      have hc : s.MRU_count + 1 ≥ (s.assoc : Int) := by
        simp at hcount
        omega
      rw [if_pos hc] at hup
      simp [runMRU, stepMRU, hget, hup]
    | cons w2 ws =>
      have hc : ¬ (s.MRU_count + 1 ≥ (s.assoc : Int)) := by
        simp at hcount
        omega
      rw [if_neg hc] at hup
      have hl' : (w2 :: ws).getLast? = some wl := by
        simpa [List.getLast?_cons_cons] using hl
      have hrec := ih { s with MRU := s.MRU.set w 1, MRU_count := s.MRU_count + 1 }
        hlen hnodup (by simpa using hM)
        (fun x hx => hws x (List.mem_cons_of_mem w hx))
        (by simp at hcount ⊢; omega) wl hl'
      have hstep : stepMRU (MRUOp.up w) s
          = Res.ok { s with MRU := s.MRU.set w 1, MRU_count := s.MRU_count + 1 } := by
        rw [stepMRU_up s w (by omega), hup]
      rw [List.map_cons, runMRU_cons_ok _ _ _ _ hstep]
      exact hrec

/-- C15: for every `assoc >= 1` and every sequence `ws` of `assoc` way indices
below `assoc` (in particular every ordering of all the ways, each exactly
once), starting from the reset state (all bits 0, `MRU_count = 0`) and calling
`setMRUUp` on the blocks of `ws` in that order ends with `MRU_count = 1`, the
bit of the last way of `ws` equal to 1 and every other bit equal to 0. -/
theorem setMRUUp_saturation (s : CacheSet) (ws : List Nat)
    (hassoc : 1 ≤ s.assoc) (hlen : s.blks.length = s.assoc) (hnodup : s.blks.Nodup)
    (hM : s.MRU = List.replicate s.assoc 0) (hc : s.MRU_count = 0)
    (hws : ws.length = s.assoc) (hrange : ∀ w ∈ ws, w < s.assoc) :
    ∃ wl, ws.getLast? = some wl ∧
      runMRU (ws.map MRUOp.up) s
        = Res.ok { s with MRU := (List.replicate s.assoc 0).set wl 1, MRU_count := 1 } := by
  have hne : ws ≠ [] := by
    intro h
    rw [h] at hws
    simp at hws
    omega
  refine ⟨ws.getLast hne, List.getLast?_eq_getLast ws hne, ?_⟩
  apply runMRU_saturates ws s hlen hnodup (by rw [hM]; simp) hrange
    (by rw [hc, hws]; simp) _ (List.getLast?_eq_getLast ws hne)

/-- Witness for C15: the ways of a four-way set in the order 2, 0, 3, 1. -/
theorem setMRUUp_saturation_witness :
    ∃ wl, [2, 0, 3, 1].getLast? = some wl ∧
      runMRU ([2, 0, 3, 1].map MRUOp.up) (initSet 4 [10, 11, 12, 13] 2)
        = Res.ok { (initSet 4 [10, 11, 12, 13] 2) with
            MRU := (List.replicate (initSet 4 [10, 11, 12, 13] 2).assoc 0).set wl 1,
            MRU_count := 1 } :=
  setMRUUp_saturation (initSet 4 [10, 11, 12, 13] 2) [2, 0, 3, 1] (by decide) (by decide)
    (by decide) (by decide) (by decide) (by decide) (by decide)

/-- C16 (counterexample): in a one-way set, `setMRUUp` on way 0 from the reset
state leaves the only bit set (`MRU = [1]`, `MRU_count = 1`), and `findMRU`
then finds no bit 0 and returns `assoc - 1 = 0` through its fallback. -/
theorem findMRU_fallback_reached_one_way :
    runMRU [MRUOp.up 0] (initSet 1 [10] 1)
      = Res.ok ⟨1, [10], [1], 1, ⟨0, none, none⟩, ⟨0, none, none⟩, 1⟩
    ∧ findMRU ⟨1, [10], [1], 1, ⟨0, none, none⟩, ⟨0, none, none⟩, 1⟩ = Res.ok (0, true) := by
  refine ⟨by decide, by decide⟩

theorem mem_set_zero_one (M : List Int) (w : Nat) (v : Int) (hv : v = 0 ∨ v = 1)
    (hM : ∀ b ∈ M, b = 0 ∨ b = 1) : ∀ b ∈ M.set w v, b = 0 ∨ b = 1 := by
  intro b hb
  rcases List.mem_or_eq_of_mem_set hb with h | h
  · exact hM b h
  · rw [h]; exact hv

theorem MRUSafe_up (s : CacheSet) (w : Nat) (hassoc : 2 ≤ s.assoc)
    (hlen : s.blks.length = s.assoc) (hnodup : s.blks.Nodup) (hw : w < s.assoc)
    (hs : MRUSafe s) :
    ∃ s1, stepMRU (MRUOp.up w) s = Res.ok s1 ∧ MRUSafe s1 ∧
      s1.blks = s.blks ∧ s1.assoc = s.assoc := by
  obtain ⟨hM, hbits, hcnt, hlt⟩ := hs
  have hget : s.blks[w]? = some s.blks[w] := List.getElem?_eq_getElem (by omega)
  have hup := setMRUUp_eq s w s.blks[w] hlen hnodup hget hM
  rw [← stepMRU_up s w (by omega)] at hup
  by_cases hc : s.MRU_count + 1 ≥ (s.assoc : Int)
  · rw [if_pos hc] at hup
    refine ⟨_, hup, ⟨by simp, ?_, ?_, ?_⟩, rfl, rfl⟩
    · apply mem_set_zero_one _ _ _ (Or.inr rfl)
      intro b hb
      exact Or.inl (List.eq_of_mem_replicate hb)
    · have hwr : w < (List.replicate s.assoc (0 : Int)).length := by simp; omega
      have hcs := List.count_set (1 : Int) 1 (List.replicate s.assoc (0 : Int)) w hwr
      have hz : List.count (1 : Int) (List.replicate s.assoc (0 : Int)) = 0 := by
        rw [List.count_eq_zero]
        intro hmem
        have := List.eq_of_mem_replicate hmem
        omega
      simp [hz] at hcs
      show ((List.count 1 ((List.replicate s.assoc (0 : Int)).set w 1) : Nat) : Int) ≤ 1
      rw [hcs]
      norm_num
    · show (1 : Int) < (s.assoc : Int)
      omega
  · rw [if_neg hc] at hup
    refine ⟨_, hup, ⟨by simpa using hM, ?_, ?_, ?_⟩, rfl, rfl⟩
    · exact mem_set_zero_one _ _ _ (Or.inr rfl) hbits
    · have hwM : w < s.MRU.length := by omega
      have hcs := List.count_set (1 : Int) 1 s.MRU w hwM
      have hle : List.count 1 (s.MRU.set w 1) ≤ List.count 1 s.MRU + 1 := by
        rw [hcs]
        split <;> simp
      show ((List.count 1 (s.MRU.set w 1) : Nat) : Int) ≤ s.MRU_count + 1
      omega
    · show s.MRU_count + 1 < (s.assoc : Int)
      omega

theorem MRUSafe_down (s : CacheSet) (w : Nat)
    (hlen : s.blks.length = s.assoc) (hnodup : s.blks.Nodup) (hw : w < s.assoc)
    (hs : MRUSafe s) :
    ∃ s1, stepMRU (MRUOp.down w) s = Res.ok s1 ∧ MRUSafe s1 ∧
      s1.blks = s.blks ∧ s1.assoc = s.assoc := by
  obtain ⟨hM, hbits, hcnt, hlt⟩ := hs
  have hget : s.blks[w]? = some s.blks[w] := List.getElem?_eq_getElem (by omega)
  obtain ⟨b, hb, hdown⟩ := setMRUDown_eq s w s.blks[w] hlen hnodup hget hM
  rw [← stepMRU_down s w (by omega)] at hdown
  have hwM : w < s.MRU.length := by omega
  have hbw : s.MRU[w] = b := by
    rw [List.getElem?_eq_getElem hwM] at hb
    exact Option.some.inj hb
  have hcs := List.count_set (0 : Int) 1 s.MRU w hwM
  refine ⟨_, hdown, ⟨by simpa using hM, ?_, ?_, ?_⟩, rfl, rfl⟩
  · exact mem_set_zero_one _ _ _ (Or.inl rfl) hbits
  · by_cases hb1 : b = 1
    · have hpos : 0 < List.count (1 : Int) s.MRU := by
        rw [List.count_pos_iff]
        rw [← hb1, ← hbw]
        exact List.getElem_mem hwM
      have heq : List.count 1 (s.MRU.set w 0) = List.count 1 s.MRU - 1 := by
        rw [hcs, hbw, hb1]
        simp
      show ((List.count 1 (s.MRU.set w 0) : Nat) : Int) ≤ if b = 1 then s.MRU_count - 1 else s.MRU_count
      rw [if_pos hb1, heq]
      omega
    · have heq : List.count 1 (s.MRU.set w 0) = List.count 1 s.MRU := by
        rw [hcs, hbw]
        simp [hb1]
      show ((List.count 1 (s.MRU.set w 0) : Nat) : Int) ≤ if b = 1 then s.MRU_count - 1 else s.MRU_count
      rw [if_neg hb1, heq]
      exact hcnt
  · show (if b = 1 then s.MRU_count - 1 else s.MRU_count) < (s.assoc : Int)
    split <;> omega

theorem runMRU_safe :
    ∀ (ops : List MRUOp) (s : CacheSet), 2 ≤ s.assoc → s.blks.length = s.assoc →
      s.blks.Nodup → (∀ op ∈ ops, op.way < s.assoc) → MRUSafe s →
      ∃ s1, runMRU ops s = Res.ok s1 ∧ MRUSafe s1 ∧ s1.assoc = s.assoc := by
  intro ops
  induction ops with
  | nil =>
    intro s _ _ _ _ hs
    exact ⟨s, rfl, hs, rfl⟩
  | cons op ops ih =>
    intro s hassoc hlen hnodup hops hs
    have hw : op.way < s.assoc := hops op (List.mem_cons_self op ops)
    have hstep : ∃ s1, stepMRU op s = Res.ok s1 ∧ MRUSafe s1 ∧
        s1.blks = s.blks ∧ s1.assoc = s.assoc := by
      cases op with
      | up w => exact MRUSafe_up s w hassoc hlen hnodup hw hs
      | down w => exact MRUSafe_down s w hlen hnodup hw hs
    obtain ⟨s1, hrun, hs1, hb1, ha1⟩ := hstep
    obtain ⟨s2, hrun2, hs2, ha2⟩ := ih s1 (by omega) (by rw [hb1, ha1]; exact hlen)
      (by rw [hb1]; exact hnodup)
      (fun o ho => by rw [ha1]; exact hops o (List.mem_cons_of_mem op ho)) hs1
    exact ⟨s2, by rw [runMRU_cons_ok op ops s s1 hrun]; exact hrun2, hs2, by omega⟩

theorem findMRULoop_hit (M : List Int) (j : Nat) (hj : M[j]? = some 0)
    (hlow : ∀ j', j' < j → M[j']? ≠ some 0) :
    ∀ n i, i ≤ j → j < i + n → findMRULoop M n i = Res.ok (some (j : Int)) := by
  intro n
  induction n with
  | zero => intro i h1 h2; omega
  | succ n ih =>
    intro i h1 h2
    rcases Nat.eq_or_lt_of_le h1 with h | h
    · subst h
      simp [findMRULoop, hj]
    · have hi : i < M.length := by
        have := (List.getElem?_eq_some_iff.mp hj).1
        omega
      have hget : M[i]? = some M[i] := List.getElem?_eq_getElem hi
      have hne : ¬ M[i] = 0 := by
        intro he
        apply hlow i h
        rw [hget, he]
      simp only [findMRULoop, hget, hne, if_false]
      exact ih (i + 1) (by omega) (by omega)

theorem MRUSafe_has_zero (s : CacheSet) (hs : MRUSafe s) : ∃ j : Nat, s.MRU[j]? = some 0 := by
  obtain ⟨hM, hbits, hcnt, hlt⟩ := hs
  have hne : List.count (1 : Int) s.MRU ≠ s.MRU.length := by omega
  have hex : ∃ b ∈ s.MRU, b ≠ 1 := by
    by_contra hall
    apply hne
    rw [List.count_eq_length]
    intro b hb
    by_contra hb1
    exact hall ⟨b, hb, fun h => hb1 h.symm⟩
  obtain ⟨b, hb, hb1⟩ := hex
  have hb0 : b = 0 := by
    rcases hbits b hb with h | h
    · exact h
    · exact absurd h hb1
  obtain ⟨j, hj, hjb⟩ := List.getElem_of_mem hb
  exact ⟨j, by rw [List.getElem?_eq_getElem hj, hjb, hb0]⟩

theorem findMRU_of_safe (s : CacheSet) (hs : MRUSafe s) :
    ∃ i : Nat, i < s.assoc ∧ s.MRU[i]? = some 0 ∧ (∀ j, j < i → s.MRU[j]? ≠ some 0) ∧
      findMRU s = Res.ok ((i : Int), false) := by
  have hex := MRUSafe_has_zero s hs
  obtain ⟨hM, _, _, _⟩ := hs
  have hi : s.MRU[Nat.find hex]? = some 0 := Nat.find_spec hex
  have hlow : ∀ j, j < Nat.find hex → s.MRU[j]? ≠ some 0 := fun j hj => Nat.find_min hex hj
  have hlt : Nat.find hex < s.MRU.length := (List.getElem?_eq_some_iff.mp hi).1
  have hloop := findMRULoop_hit s.MRU (Nat.find hex) hi hlow s.assoc 0 (Nat.zero_le _) (by omega)
  refine ⟨Nat.find hex, by omega, hi, hlow, ?_⟩
  simp only [findMRU, hloop]

/-- C16 (amended): for every `assoc >= 2` and every sequence of `setMRUUp` /
`setMRUDown` calls on blocks of the set (way array of `assoc` pairwise distinct
entries), run from the reset state (all bits 0, `MRU_count = 0`), the calls
return and leave at least one bit 0, and `findMRU` returns the lowest index `i`
with `MRU[i] == 0`, not through the fallback `return assoc - 1`. -/
theorem findMRU_fallback_unreachable (s : CacheSet) (ops : List MRUOp)
    (hassoc : 2 ≤ s.assoc) (hlen : s.blks.length = s.assoc) (hnodup : s.blks.Nodup)
    (hM : s.MRU = List.replicate s.assoc 0) (hc : s.MRU_count = 0)
    (hops : ∀ op ∈ ops, op.way < s.assoc) :
    ∃ s1 : CacheSet, ∃ i : Nat, runMRU ops s = Res.ok s1 ∧ i < s1.assoc ∧
      s1.MRU[i]? = some 0 ∧ (∀ j, j < i → s1.MRU[j]? ≠ some 0) ∧
      findMRU s1 = Res.ok ((i : Int), false) := by
  have hs : MRUSafe s := by
    refine ⟨by rw [hM]; simp, ?_, ?_, ?_⟩
    · intro b hb
      rw [hM] at hb
      exact Or.inl (List.eq_of_mem_replicate hb)
    · have hz : List.count (1 : Int) s.MRU = 0 := by
        rw [List.count_eq_zero, hM]
        intro hmem
        have := List.eq_of_mem_replicate hmem
        omega
      rw [hz, hc]
      norm_num
    · rw [hc]
      omega
  obtain ⟨s1, hrun, hs1, _⟩ := runMRU_safe ops s hassoc hlen hnodup hops hs
  obtain ⟨i, hi, hz, hlow, hfind⟩ := findMRU_of_safe s1 hs1
  exact ⟨s1, i, hrun, hi, hz, hlow, hfind⟩

/-- Witness for C16 (amended): a two-way set after `setMRUUp` on way 0, then on
way 1 (which saturates), then `setMRUDown` on way 0. -/
theorem findMRU_fallback_unreachable_witness :
    ∃ s1 : CacheSet, ∃ i : Nat,
      runMRU [MRUOp.up 0, MRUOp.up 1, MRUOp.down 0] (initSet 2 [10, 11] 1) = Res.ok s1 ∧
      i < s1.assoc ∧ s1.MRU[i]? = some 0 ∧ (∀ j, j < i → s1.MRU[j]? ≠ some 0) ∧
      findMRU s1 = Res.ok ((i : Int), false) :=
  findMRU_fallback_unreachable (initSet 2 [10, 11] 1) [MRUOp.up 0, MRUOp.up 1, MRUOp.down 0]
    (by decide) (by decide) (by decide) (by decide) (by decide) (by decide)

/-! ## Strict LRU reordering: the tail, and blocks that are not in the set -/

theorem moveToTailLoop_step (blk : BlkPtr) (fuel : Nat) (P : List BlkPtr) (t : BlkPtr)
    (done : List BlkPtr) (x : BlkPtr) :
    moveToTailLoop blk (fuel + 1) (P ++ t :: done) (P.length : Int) x
      = if t ≠ blk then moveToTailLoop blk fuel (P ++ x :: done) ((P.length : Int) - 1) t
        else Res.ok (P ++ x :: done) := by
  have h0 : (0 : Int) ≤ (P.length : Int) := Int.ofNat_nonneg _
  have hget : (P ++ t :: done)[P.length]? = some t := by
    rw [List.getElem?_append_right (le_refl _)]; simp
  have hset : (P ++ t :: done).set P.length x = P ++ x :: done := by simp
  simp only [moveToTailLoop, h0, if_true, Int.toNat_ofNat, hget, hset]

theorem moveToTailLoop_spec (blk : BlkPtr) :
    ∀ (b a done : List BlkPtr) (x : BlkPtr) (fuel : Nat), blk ∉ b → b.length < fuel →
      moveToTailLoop blk fuel (a ++ blk :: b ++ done) (((a ++ blk :: b).length : Int) - 1) x
        = Res.ok (a ++ b ++ x :: done) := by
  intro b
  induction b using List.reverseRecOn with
  | nil =>
    intro a done x fuel _ hfuel
    obtain ⟨f, rfl⟩ : ∃ f, fuel = f + 1 := ⟨fuel - 1, by simp at hfuel; omega⟩
    have hidx : (((a ++ [blk]).length : Int) - 1) = (a.length : Int) := by simp
    have hstep := moveToTailLoop_step blk f a blk done x
    simp only [ne_eq, not_true_eq_false, if_false] at hstep
    simpa [hidx] using hstep
  | append_singleton b t ih =>
    intro a done x fuel hmem hfuel
    obtain ⟨f, rfl⟩ : ∃ f, fuel = f + 1 := ⟨fuel - 1, by simp at hfuel; omega⟩
    have ht : t ≠ blk := by
      intro he
      apply hmem
      simp [he]
    have hb : blk ∉ b := fun h => hmem (by simp [h])
    have hlist : a ++ blk :: (b ++ [t]) ++ done = (a ++ blk :: b) ++ t :: done := by simp
    have hidx : (((a ++ blk :: (b ++ [t])).length : Int) - 1) = ((a ++ blk :: b).length : Int) := by
      simp
      omega
    have hstep := moveToTailLoop_step blk f (a ++ blk :: b) t done x
    rw [if_pos ht] at hstep
    rw [hlist, hidx, hstep]
    have hrec := ih a (x :: done) t f hb (by simp at hfuel; omega)
    rw [hrec]
    simp

/-- C17: when `blk` occurs in the way array (of length `assoc`, entries pairwise
distinct), `moveToTail(blk)` returns normally (the `assert` holds throughout)
and leaves the array equal to the old array with `blk` removed, followed by
`blk`; the other data members are untouched, and the call changes nothing when
`blk` was already at index `assoc - 1`. -/
theorem moveToTail_spec (s : CacheSet) (blk : BlkPtr)
    (hlen : s.blks.length = s.assoc) (hnodup : s.blks.Nodup) (hmem : blk ∈ s.blks) :
    moveToTail s blk = Res.ok { s with blks := s.blks.erase blk ++ [blk] }
    ∧ (s.blks.erase blk ++ [blk]).getLast? = some blk
    ∧ s.blks.erase blk = s.blks.filter (fun b => b ≠ blk)
    ∧ (s.blks.getLast? = some blk → moveToTail s blk = Res.ok s) := by
  have hfilter : s.blks.erase blk = s.blks.filter (fun b => b ≠ blk) := by
    rw [List.Nodup.erase_eq_filter hnodup]
    congr 1
    funext b
    rw [Bool.eq_iff_iff]
    simp [bne]
  obtain ⟨a, b, hab⟩ := List.append_of_mem hmem
  have hnd : (a ++ blk :: b).Nodup := by rw [← hab]; exact hnodup
  have ha : blk ∉ a := by
    intro h
    have := (List.nodup_append.mp hnd).2.2 h (List.mem_cons_self blk b)
    exact this
  have hb : blk ∉ b := (List.nodup_cons.mp (List.nodup_append.mp hnd).2.1).1
  have herase : s.blks.erase blk = a ++ b := by
    rw [hab, List.erase_append_right _ ha]
    simp
  have hpos : ¬ ((s.assoc : Int) - 1 < 0) := by
    have : 0 < s.blks.length := List.length_pos_of_mem hmem
    omega
  have hlast : s.blks[s.assoc - 1]? = s.blks.getLast? := by
    rw [List.getLast?_eq_getElem?, hlen]
  have hnoop : s.blks.getLast? = some blk → moveToTail s blk = Res.ok s := by
    intro h
    simp [moveToTail, hpos, hlast, h]
  refine ⟨?_, by simp, hfilter, hnoop⟩
  rcases List.eq_nil_or_concat b with hbn | ⟨b', t, hbt⟩
  · -- `blk` is already the last entry
    subst hbn
    have hl : s.blks.getLast? = some blk := by rw [hab]; simp
    rw [hnoop hl, herase]
    have : ({ s with blks := a ++ [] ++ [blk] } : CacheSet) = s := by
      have h2 : a ++ [] ++ [blk] = s.blks := by rw [hab]; simp
      rw [h2]
    rw [this]
  · have ht : t ≠ blk := by
      intro he
      apply hb
      rw [hbt, he]
      simp
    have hl : s.blks.getLast? = some t := by
      rw [hab, hbt, List.concat_eq_append]
      have : a ++ blk :: (b' ++ [t]) = (a ++ blk :: b') ++ [t] := by simp
      rw [this, List.getLast?_concat]
    have hloop := moveToTailLoop_spec blk b a [] blk (s.assoc + 1) hb (by
      have : (a ++ blk :: b).length = s.assoc := by rw [← hab]; exact hlen
      simp at this
      omega)
    have hidx : (((a ++ blk :: b).length : Int) - 1) = (s.assoc : Int) - 1 := by
      rw [← hab, hlen]
    rw [hidx] at hloop
    simp only [List.append_nil] at hloop
    rw [← hab] at hloop
    simp only [moveToTail, hpos, if_false, hlast, hl, ht, hloop, herase]

/-- Witness for C17: demoting the block of way 1 in a four-way set. -/
theorem moveToTail_spec_witness :
    moveToTail ⟨4, [10, 11, 12, 13], [], 0, ⟨0, none, none⟩, ⟨0, none, none⟩, 2⟩ 11
      = Res.ok ⟨4, [10, 12, 13, 11], [], 0, ⟨0, none, none⟩, ⟨0, none, none⟩, 2⟩ :=
  (moveToTail_spec ⟨4, [10, 11, 12, 13], [], 0, ⟨0, none, none⟩, ⟨0, none, none⟩, 2⟩ 11
    (by decide) (by decide) (by decide)).1

/-- C18 (counterexample): in a four-way set, `moveToHead` and `moveToTail` on a
block that is in none of the ways do not return normally and so do not leave
the way array as it was: the loop runs off the array and the `assert` fails. -/
theorem reposition_unknown_block_faults :
    moveToHead ⟨4, [10, 11, 12, 13], [], 0, ⟨0, none, none⟩, ⟨0, none, none⟩, 2⟩ 99
      = Res.fault
    ∧ moveToTail ⟨4, [10, 11, 12, 13], [], 0, ⟨0, none, none⟩, ⟨0, none, none⟩, 2⟩ 99
      = Res.fault
    ∧ moveToHead ⟨4, [10, 11, 12, 13], [], 0, ⟨0, none, none⟩, ⟨0, none, none⟩, 2⟩ 99
      ≠ Res.ok ⟨4, [10, 11, 12, 13], [], 0, ⟨0, none, none⟩, ⟨0, none, none⟩, 2⟩ := by
  refine ⟨by decide, by decide, by decide⟩

theorem moveToHeadLoop_absent (assoc : Nat) (blk : BlkPtr) :
    ∀ (n fuel : Nat) (blks : List BlkPtr) (i : Nat) (next : BlkPtr),
      blks.length = assoc → i + n = assoc → n < fuel →
      (∀ j, i ≤ j → blks[j]? ≠ some blk) →
      moveToHeadLoop assoc blk fuel blks i next = Res.fault := by
  intro n
  induction n with
  | zero =>
    intro fuel blks i next _ hi hfuel _
    obtain ⟨f, rfl⟩ : ∃ f, fuel = f + 1 := ⟨fuel - 1, by omega⟩
    have : ¬ (i < assoc) := by omega
    simp [moveToHeadLoop, this]
  | succ n ih =>
    intro fuel blks i next hlen hi hfuel habs
    obtain ⟨f, rfl⟩ : ∃ f, fuel = f + 1 := ⟨fuel - 1, by omega⟩
    have hlt : i < assoc := by omega
    have hget : blks[i]? = some blks[i] := List.getElem?_eq_getElem (by omega)
    have hne : blks[i] ≠ blk := by
      intro he
      apply habs i (le_refl i)
      rw [hget, he]
    simp only [moveToHeadLoop, hlt, if_true, hget, hne, ne_eq, not_false_eq_true]
    apply ih f (blks.set i next) (i + 1) blks[i] (by simpa using hlen) (by omega) (by omega)
    intro j hj
    rw [List.getElem?_set_ne (by omega)]
    exact habs j (by omega)

theorem moveToTailLoop_absent (blk : BlkPtr) :
    ∀ (n fuel : Nat) (blks : List BlkPtr) (next : BlkPtr),
      n ≤ blks.length → n < fuel →
      (∀ j, j < n → blks[j]? ≠ some blk) →
      moveToTailLoop blk fuel blks ((n : Int) - 1) next = Res.fault := by
  intro n
  induction n with
  | zero =>
    intro fuel blks next _ hfuel _
    obtain ⟨f, rfl⟩ : ∃ f, fuel = f + 1 := ⟨fuel - 1, by omega⟩
    simp [moveToTailLoop]
  | succ n ih =>
    intro fuel blks next hlen hfuel habs
    obtain ⟨f, rfl⟩ : ∃ f, fuel = f + 1 := ⟨fuel - 1, by omega⟩
    have hidx : ((n + 1 : Nat) : Int) - 1 = (n : Int) := by push_cast; ring
    have h0 : (0 : Int) ≤ (n : Int) := Int.ofNat_nonneg n
    have hget : blks[n]? = some blks[n] := List.getElem?_eq_getElem (by omega)
    have hne : blks[n] ≠ blk := by
      intro he
      apply habs n (by omega)
      rw [hget, he]
    rw [hidx]
    simp only [moveToTailLoop, h0, if_true, Int.toNat_ofNat, hget, hne, ne_eq,
      not_false_eq_true]
    apply ih f (blks.set n next) blks[n] (by simp; omega) (by omega)
    intro j hj
    rw [List.getElem?_set_ne (by omega)]
    exact habs j (by omega)

/-- C18 (amended): for every way array of length `assoc >= 1` and every block
`blk` that does not occur in it, `moveToHead(blk)` and `moveToTail(blk)` do not
return: the scan for `blk` leaves the array and `assert(i < assoc)`, resp.
`assert(i >= 0)`, fails. -/
theorem reposition_unknown_block (s : CacheSet) (blk : BlkPtr)
    (hassoc : 1 ≤ s.assoc) (hlen : s.blks.length = s.assoc) (habs : blk ∉ s.blks) :
    moveToHead s blk = Res.fault ∧ moveToTail s blk = Res.fault := by
  have hno : ∀ j : Nat, s.blks[j]? ≠ some blk := by
    intro j hj
    obtain ⟨hlt, he⟩ := List.getElem?_eq_some_iff.mp hj
    exact habs (he ▸ List.getElem_mem hlt)
  constructor
  · have h0 : s.blks[0]? = some s.blks[0] := List.getElem?_eq_getElem (by omega)
    have hne : ¬ s.blks[0] = blk := by
      intro he
      apply hno 0
      rw [h0, he]
    have hloop := moveToHeadLoop_absent s.assoc blk s.assoc (s.assoc + 1) s.blks 0 blk hlen
      (by omega) (by omega) (fun j _ => hno j)
    simp only [moveToHead, h0, hne, if_false, hloop]
  · have hpos : ¬ ((s.assoc : Int) - 1 < 0) := by omega
    have hl : s.blks[s.assoc - 1]? = some s.blks[s.assoc - 1] :=
      List.getElem?_eq_getElem (by omega)
    have hne : ¬ s.blks[s.assoc - 1] = blk := by
      intro he
      apply hno (s.assoc - 1)
      rw [hl, he]
    have hloop := moveToTailLoop_absent blk s.assoc (s.assoc + 1) s.blks blk (by omega)
      (by omega) (fun j _ => hno j)
    simp only [moveToTail, hpos, if_false, hl, hne, hloop]

/-- Witness for C18 (amended): block 99 in a four-way set holding 10 to 13. -/
theorem reposition_unknown_block_witness :
    moveToHead ⟨4, [10, 11, 12, 13], [], 0, ⟨0, none, none⟩, ⟨0, none, none⟩, 2⟩ 99
      = Res.fault
    ∧ moveToTail ⟨4, [10, 11, 12, 13], [], 0, ⟨0, none, none⟩, ⟨0, none, none⟩, 2⟩ 99
      = Res.fault :=
  reposition_unknown_block ⟨4, [10, 11, 12, 13], [], 0, ⟨0, none, none⟩, ⟨0, none, none⟩, 2⟩
    99 (by decide) (by decide) (by decide)

/-! ## Two-queue policy: scans that do not end -/

theorem walk_selfloop (h : Heap) (a : Nat) (hn : h.next a = some a) :
    ∀ n, walk h n (some a) = some a := by
  intro n
  induction n with
  | zero => rfl
  | succ n ih => simp only [walk, hn, ih]

theorem walk_never_null (h : Heap) (p : Option Nat) (a : Nat) (hp : p = some a)
    (hn : h.next a = some a) : ∀ n, walk h n p ≠ none := by
  intro n hc
  rw [hp, walk_selfloop h a hn n] at hc
  cases hc

theorem miss2qLoop_selfloop (i : Int) (h : Heap) (a : Nat) (hn : h.next a = some a)
    (hv : h.val a ≠ i) : ∀ fuel, miss2qLoop i fuel h a (some a) = Res.timeout := by
  intro fuel
  induction fuel with
  | zero => rfl
  | succ f ih => simp only [miss2qLoop, hv, if_false, hn, ih]

theorem miss2q_selfloop (h : Heap) (s : CacheSet) (blk : BlkPtr) (i : Int) (a : Nat)
    (hfw : findWay s.blks blk s.assoc = Res.ok i) (hi : i ≠ -1)
    (hA1 : s.A1.front = none) (hAm : s.Am.front = some a)
    (hn : h.next a = some a) (hv : h.val a ≠ i) :
    ∀ fuel, miss2q fuel blk h s = Res.timeout := by
  intro fuel
  have hloop := miss2qLoop_selfloop i h a hn hv fuel
  simp [miss2q, hfw, hi, miss2qA1, hA1, miss2qAm, hAm, hv, hn, hloop]

theorem hit2qAmLoop_selfloop (i : Int) (h : Heap) (Am : queue) (a : Nat)
    (hn : h.next a = some a) (hr : ¬ (some a = Am.rear)) (hv : h.val a ≠ i) :
    ∀ fuel, hit2qAmLoop i fuel h Am a = Res.timeout := by
  intro fuel
  induction fuel with
  | zero => rfl
  | succ f ih => simp only [hit2qAmLoop, hn, hr, hv, if_false, ih]

theorem hit2q_selfloop (h : Heap) (s : CacheSet) (blk : BlkPtr) (i : Int) (a : Nat)
    (hfw : findWay s.blks blk s.assoc = Res.ok i) (hi : i ≠ -1)
    (hAm : s.Am.front = some a)
    (hn : h.next a = some a) (hr : ¬ (some a = s.Am.rear)) (hv : h.val a ≠ i) :
    ∀ fuel, hit2q fuel blk h s = Res.timeout := by
  intro fuel
  have hloop := hit2qAmLoop_selfloop i h s.Am a hn hr hv fuel
  simp [hit2q, hfw, hi, hit2qAm, hAm, hv, hloop]

/-- C19 (evaluation at failing inputs): with `assoc = 4`, `A1thres = 2`, from
the empty 2Q state, `insert2q(0), hit2q(0), hit2q(0)` leave the node of way 0
in `Am` with its `next` pointing at itself, so the chain from `Am.front` never
reaches `NULL`, and `miss2q` on way 1 then runs out of every recursion bound:
its `while (del)` loop does not end.  After `insert2q(2), insert2q(0),
hit2q(2), hit2q(2), miss2q(0), insert2q(1)`, each on a way that is in a queue
(resp. in none, for the inserts), `hit2q` on way 1 does not end either. -/
theorem scan2q_does_not_end :
    (∃ st, run 10 [Op.insert 0, Op.hit 0, Op.hit 0] Heap.empty
          (initSet 4 [10, 11, 12, 13] 2) = Res.ok st
        ∧ (∀ n, walk st.1 n st.2.Am.front ≠ none)
        ∧ ∀ fuel, miss2q fuel 11 st.1 st.2 = Res.timeout)
    ∧ (∃ st, run 10 [Op.insert 2, Op.insert 0, Op.hit 2, Op.hit 2, Op.miss 0, Op.insert 1]
          Heap.empty (initSet 4 [10, 11, 12, 13] 2) = Res.ok st
        ∧ ∀ fuel, hit2q fuel 11 st.1 st.2 = Res.timeout) := by
  constructor
  · exact ⟨_, rfl, walk_never_null _ _ 0 rfl rfl,
      miss2q_selfloop _ _ 11 1 0 (by decide) (by decide) rfl rfl rfl (by decide)⟩
  · exact ⟨_, rfl,
      hit2q_selfloop _ _ 11 1 1 (by decide) (by decide) rfl rfl (by decide) (by decide)⟩

end CacheSetModel
